import Mathlib

/-!
# godfs binlog: a shallow embedding of `binlog/binlog.go`

The binlog is a segmented, append-only log of fixed-width records.  Each record is
written as one line: the 102-byte record buffer in unpadded URL-safe base64, followed
by a line feed.  This file embeds the record codec, the segment scanner, the writer
and the reader as Lean functions and proves properties of them.

Conventions of the embedding:

* a Go `byte` is a `Fin 256`; a Go `string` or `[]byte` is a `List Byte`;
* a Go `[8]byte` is `Bytes8`, a list of bytes carrying the proof that it has 8 entries;
* a Go `int`/`int64` is an `Int` (no quantity in this file comes near 2^63);
* the data directory is a value of type `Disk` that is passed in and returned;
* a Go function that can panic (index out of range) returns an `Option`.
-/

namespace binlog

/-- A Go `byte`. -/
abbrev Byte := Fin 256

/-- The line terminator `'\n'`. -/
def LF : Byte := 10

/-- The carriage return `'\r'`. -/
def CR : Byte := 13

/-- `MAX_BINLOG_SIZE int = 2 << 20`. -/
def MAX_BINLOG_SIZE : Int := 2097152

/-- `LOCAL_BINLOG_SIZE = 102`: the width of one record buffer (8 + 8 + 86). -/
def LOCAL_BINLOG_SIZE : Nat := 102

/-! ## `encoding/base64`, `RawURLEncoding` -/

/-- The URL-safe alphabet `A-Z a-z 0-9 - _` of `base64.RawURLEncoding`, as byte values. -/
def encodeURL : List Byte :=
  [65, 66, 67, 68, 69, 70, 71, 72, 73, 74, 75, 76, 77, 78, 79, 80,
   81, 82, 83, 84, 85, 86, 87, 88, 89, 90, 97, 98, 99, 100, 101, 102,
   103, 104, 105, 106, 107, 108, 109, 110, 111, 112, 113, 114, 115, 116, 117, 118,
   119, 120, 121, 122, 48, 49, 50, 51, 52, 53, 54, 55, 56, 57, 45, 95]

/-- The table lookup `enc.encode[v & 0x3F]`. -/
def encChar (v : Nat) : Byte := encodeURL.getD (v % 64) 0

/-- The table `enc.decodeMap`: the position of a byte in the alphabet, `none` standing for
the entry `0xFF` of a byte outside the alphabet. -/
def decodeMap (c : Byte) : Option Nat :=
  let i := encodeURL.indexOf c
  if i < 64 then some i else none

/-- `base64.RawURLEncoding.EncodeToString`: three bytes become four characters; a
remainder of one or two bytes becomes two or three characters, without padding. -/
def EncodeToString : List Byte → List Byte
  | b0 :: b1 :: b2 :: rest =>
    let val := b0.val * 65536 + b1.val * 256 + b2.val
    encChar (val / 262144) :: encChar (val / 4096) :: encChar (val / 64) :: encChar val ::
      EncodeToString rest
  | [b0, b1] =>
    let val := b0.val * 65536 + b1.val * 256
    [encChar (val / 262144), encChar (val / 4096), encChar (val / 64)]
  | [b0] =>
    let val := b0.val * 65536
    [encChar (val / 262144), encChar (val / 4096)]
  | [] => []

/-- The bytes a quantum of `dlen` sextets decodes to (`dlen - 1` of them):
`val := dbuf[0]<<18 | dbuf[1]<<12 | dbuf[2]<<6 | dbuf[3]`, then `byte(val>>16)`,
`byte(val>>8)`, `byte(val)`. -/
def quantumBytes (dbuf : List Nat) : List Byte :=
  let val := dbuf.getD 0 0 * 262144 + dbuf.getD 1 0 * 4096 + dbuf.getD 2 0 * 64 + dbuf.getD 3 0
  ([Fin.ofNat (val / 65536), Fin.ofNat (val / 256), Fin.ofNat val] : List Byte).take
    (dbuf.length - 1)

/-- The loop of `Encoding.Decode` over `decodeQuantum`, for an encoding without padding and
without strict mode.  `dbuf` holds the sextets of the quantum being gathered.  Line feeds
and carriage returns are skipped; another byte outside the alphabet is a
`CorruptInputError` (`none`), and so is an input that ends one character into a quantum. -/
def decodeLoop : List Nat → List Byte → Option (List Byte)
  | dbuf, [] => if dbuf.length = 1 then none else some (quantumBytes dbuf)
  | dbuf, c :: rest =>
    match decodeMap c with
    | some out =>
      if dbuf.length = 3 then
        (decodeLoop [] rest).map (fun tl => quantumBytes (dbuf ++ [out]) ++ tl)
      else decodeLoop (dbuf ++ [out]) rest
    | none => if c = LF ∨ c = CR then decodeLoop dbuf rest else none

/-- `base64.RawURLEncoding.DecodeString`; `none` is a `CorruptInputError`. -/
def DecodeString (s : List Byte) : Option (List Byte) := decodeLoop [] s

/-! ## Records -/

/-- A Go `[8]byte`. -/
structure Bytes8 where
  data : List Byte
  size_eq : data.length = 8
deriving DecidableEq

/-- The all-zero `[8]byte`. -/
def Bytes8.zero : Bytes8 := ⟨List.replicate 8 0, rfl⟩

/-- `common.BingLog`: the record as it is handed to `Write`. -/
structure BingLog where
  SourceInstance : Bytes8
  FileLength : Bytes8
  FileId : List Byte
deriving DecidableEq

/-- `common.BingLogDTO`: the record as `Read` returns it. -/
structure BingLogDTO where
  SourceInstance : List Byte
  FileLength : Int
  FileId : List Byte
deriving DecidableEq

/-- The numeric length codec `convert.Length2Bytes` / `convert.Bytes2Length` of the `gox`
library, which is not part of this repository: it is a parameter of the embedding.
`Length2Bytes n` is the content of the 8-byte buffer after the call. -/
structure LengthCodec where
  Length2Bytes : Int → Bytes8
  Bytes2Length : List Byte → Int

/-- A concrete length codec: 8 bytes, big endian (`binary.BigEndian.PutUint64` of the
value taken modulo 2^64, and `binary.BigEndian.Uint64` read back as an `int64`). -/
def bigEndian : LengthCodec where
  Length2Bytes n :=
    let u := (n % 18446744073709551616).toNat
    ⟨[Fin.ofNat (u / 72057594037927936), Fin.ofNat (u / 281474976710656),
      Fin.ofNat (u / 1099511627776), Fin.ofNat (u / 4294967296), Fin.ofNat (u / 16777216),
      Fin.ofNat (u / 65536), Fin.ofNat (u / 256), Fin.ofNat u], rfl⟩
  Bytes2Length bs :=
    let u : Int := (bs.foldl (fun acc b => acc * 256 + b.val) 0 : Nat)
    if u < 9223372036854775808 then u else u - 18446744073709551616

/-- `Copy8`: `target[i] = src[i]` for `i` from 0 to 7.  A source of fewer than 8 bytes
makes `src[i]` panic with an index out of range: `none`. -/
def Copy8 (src : List Byte) : Option Bytes8 :=
  match src with
  | b0 :: b1 :: b2 :: b3 :: b4 :: b5 :: b6 :: b7 :: _ => some ⟨[b0, b1, b2, b3, b4, b5, b6, b7], rfl⟩
  | _ => none

/-- `CreateLocalBinlog`: the length is written into a fresh 8-byte buffer and copied, the
instance id is copied with `Copy8`, the file id is taken as it is.  `none` is a panic. -/
def CreateLocalBinlog (codec : LengthCodec) (fileId : List Byte) (fileLength : Int)
    (instanceId : List Byte) : Option BingLog :=
  let buffer8 := codec.Length2Bytes fileLength
  match Copy8 buffer8.data with
  | none => none
  | some flen =>
    match Copy8 instanceId with
    | none => none
    | some ins => some { FileId := fileId, SourceInstance := ins, FileLength := flen }

/-! ## The record line, as `Write` builds it -/

/-- The builtin `copy(dst, src)`: the first `min (len dst) (len src)` bytes of `dst` are
replaced by those of `src`; the result is the new content of `dst`. -/
def goCopy (dst src : List Byte) : List Byte :=
  src.take dst.length ++ dst.drop src.length

/-- One iteration of the loop of `Write` on the scratch buffer `singleBinlogBuffer`:
`copy(buf[0:8], SourceInstance[:])`, `copy(buf[8:16], FileLength[:])`,
`copy(buf[16:], FileId[:])`.  The result is the new content of the scratch buffer. -/
def fillBuffer (buf : List Byte) (r : BingLog) : List Byte :=
  goCopy (buf.take 8) r.SourceInstance.data ++
    goCopy ((buf.drop 8).take 8) r.FileLength.data ++
    goCopy (buf.drop 16) r.FileId

/-- The loop `for i := 0; i < l; i++` of `Write`: every record is copied into the scratch
buffer, and the base64 text of the whole scratch buffer and a line feed are appended to
`m.buffer`.  Returns the scratch buffer and `m.buffer` after the loop. -/
def writeLoop : List Byte → List Byte → List BingLog → List Byte × List Byte
  | single, buffer, [] => (single, buffer)
  | single, buffer, r :: rest =>
    let single1 := fillBuffer single r
    writeLoop single1 (buffer ++ EncodeToString single1 ++ [LF]) rest

/-- The scratch buffer of a new manager: `make([]byte, LOCAL_BINLOG_SIZE)`. -/
def freshBuffer : List Byte := List.replicate LOCAL_BINLOG_SIZE 0

/-- The line `Write` emits for one record from a new manager. -/
def encodeLine (r : BingLog) : List Byte := (writeLoop freshBuffer [] [r]).2

/-! ## Reading lines -/

/-- `bufio.Reader.ReadBytes('\n')` on the unread rest of a file: the bytes up to and
including the first line feed, and what is left after them; `none` is `io.EOF` (the rest
of the file holds no line feed). -/
def ReadBytes : List Byte → Option (List Byte × List Byte)
  | [] => none
  | c :: rest =>
    if c = LF then some ([c], rest)
    else match ReadBytes rest with
      | none => none
      | some (line, rest1) => some (c :: line, rest1)

/-- The lines that successive calls of `ReadBytes('\n')` return before `io.EOF`; `cur` is
the part of the current line that was already passed. -/
def linesFrom : List Byte → List Byte → List (List Byte)
  | _, [] => []
  | cur, c :: rest =>
    if c = LF then (cur ++ [c]) :: linesFrom [] rest else linesFrom (cur ++ [c]) rest

/-- The terminated lines of a file content, each with its line feed; an unterminated
trailing line is not among them. -/
def lines (data : List Byte) : List (List Byte) := linesFrom [] data

/-- The outcomes of the calls that can fail. -/
inductive Err where
  /-- The error `invalid binlog state: binlog loss` of the segment scanner. -/
  | binlogLoss
  /-- The error of `os.Stat` on a path that does not exist. -/
  | notExist
  /-- The error of `Close` or `Write` on a file that is already closed. -/
  | closed
  /-- The failure of opening or creating a file. -/
  | openFailed
  /-- The error of `Seek` to a negative offset. -/
  | seek
  /-- The `CorruptInputError` of the base64 decoder. -/
  | corruptInput
  /-- A runtime panic (index out of range). -/
  | panic
deriving DecidableEq

/-- What the body of the loop of `Read` does with one line `bs` returned by `ReadBytes`. -/
inductive LineResult where
  /-- The line is skipped (`continue`). -/
  | skip
  /-- The read is aborted with an error. -/
  | fail (e : Err)
  /-- The line is a record. -/
  | record (bl : BingLog)
deriving DecidableEq

/-- The body of the loop of `Read` after `forwardOffset += len(bs)`: a line of fewer than
2 bytes is skipped; the line is base64-decoded, with its line feed, and a decoding error
aborts the read; a decoded length other than `LOCAL_BINLOG_SIZE` is skipped; otherwise the
record is `Copy8(bs[0:8])`, `Copy8(bs[8:16])`, `bs[16:]`. -/
def decodeLine (bs : List Byte) : LineResult :=
  if bs.length < 2 then .skip
  else match DecodeString bs with
    | none => .fail .corruptInput
    | some raw =>
      if raw.length ≠ LOCAL_BINLOG_SIZE then .skip
      else match Copy8 (raw.take 8), Copy8 ((raw.drop 8).take 8) with
        | some si, some fl => .record { SourceInstance := si, FileLength := fl, FileId := raw.drop 16 }
        | _, _ => .fail .panic

/-- The loop of `Read` over the lines that `ReadBytes` returns.  The state is
`forwardOffset`, `readLines` and the container of records; the loop ends at `io.EOF` (no
line left) or when `readLines >= fetchLine` after a record was pushed. -/
def readLoop (fetchLine : Int) : List (List Byte) → Int → Int → List BingLog →
    Except Err (List BingLog × Int)
  | [], forwardOffset, _, container => .ok (container, forwardOffset)
  | bs :: rest, forwardOffset, readLines, container =>
    let forwardOffset1 := forwardOffset + bs.length
    match decodeLine bs with
    | .skip => readLoop fetchLine rest forwardOffset1 readLines container
    | .fail e => .error e
    | .record bl =>
      if readLines + 1 ≥ fetchLine then .ok (container ++ [bl], forwardOffset1)
      else readLoop fetchLine rest forwardOffset1 (readLines + 1) (container ++ [bl])

/-- The conversion of a record to `common.BingLogDTO` at the end of `Read`. -/
def toDTO (codec : LengthCodec) (sit : BingLog) : BingLogDTO :=
  { SourceInstance := sit.SourceInstance.data
    FileLength := codec.Bytes2Length sit.FileLength.data
    FileId := sit.FileId }

/-- `Read` once the segment file is found: `content` is what the file holds.  The result
is the triple that `Read` returns: records, offset, error.
An offset at or past the size returns nothing; opening can fail; a negative offset
makes `Seek` fail; otherwise the lines after `offset` are read. -/
def readSegment (codec : LengthCodec) (failOpen : Bool) (content : List Byte) (offset : Int)
    (fetchLine : Int) : List BingLogDTO × Int × Option Err :=
  if (content.length : Int) ≤ offset then ([], offset, none)
  else if failOpen then ([], offset, some .openFailed)
  else if offset < 0 then ([], offset, some .seek)
  else match readLoop fetchLine (lines (content.drop offset.toNat)) 0 0 [] with
    | .error e => ([], offset, some e)
    | .ok (container, forwardOffset) => (container.map (toDTO codec), offset + forwardOffset, none)

/-! ## The data directory -/

/-- The state outside the manager.  `files` maps the index `i` of an existing segment
`bin.<i>` to its content: the path `binlogDir + "/bin." + util.FixZeros(i, 3)` that
`getBinLogFileNameByIndex` builds is represented by the index `i` it is built from, so
distinct indices are taken to give distinct paths (`util.FixZeros` is defined outside
`binlog.go`).  `records` is the side index.  `failOpen` is a fault switch: while it is set,
opening or creating a file fails.  The binlog directory itself is not tracked:
`initialBinlogDir` is taken to succeed, and so are `Stat` on an open file and the calls of
the side index. -/
structure Disk where
  files : List (Int × List Byte)
  records : List (Int × Int)
  failOpen : Bool
deriving DecidableEq

/-- The empty data directory. -/
def Disk.empty : Disk := { files := [], records := [], failOpen := false }

/-- `file.Exists(getBinLogFileNameByIndex(binlogDir, i))`. -/
def Disk.fileExists (d : Disk) (i : Int) : Bool := (d.files.lookup i).isSome

/-- The new list of an association list after the value of key `i` is set to `v`. -/
def setKey {α : Type} (i : Int) (v : α) : List (Int × α) → List (Int × α)
  | [] => [(i, v)]
  | (j, w) :: rest => if j = i then (i, v) :: rest else (j, w) :: setKey i v rest

/-- Modelled from the spec: `binlogMapManager.GetRecords` (the type `XBinlogMapManager` is
defined outside `binlog.go`): the count stored in the slot of segment `index`, 0 for a slot
that was never written. -/
def Disk.GetRecords (d : Disk) (index : Int) : Int := (d.records.lookup index).getD 0

/-- Modelled from the spec: `binlogMapManager.SetRecords` (the type `XBinlogMapManager` is
defined outside `binlog.go`): the slot of segment `index` is replaced by `count`. -/
def Disk.SetRecords (d : Disk) (index count : Int) : Disk :=
  { d with records := setKey index count d.records }

/-- An `*os.File`: the segment it was opened on and whether `Close` was called on it. -/
structure FileHandle where
  index : Int
  closed : Bool
deriving DecidableEq

/-- `file.AppendFile(name)`: the file is created empty when it does not exist, and opened
for appending. -/
def Disk.AppendFile (d : Disk) (i : Int) : Except Err (FileHandle × Disk) :=
  if d.failOpen then .error .openFailed
  else if d.fileExists i then .ok ({ index := i, closed := false }, d)
  else .ok ({ index := i, closed := false }, { d with files := setKey i [] d.files })

/-- `(*os.File).Write` on a file opened for appending. -/
def Disk.appendTo (d : Disk) (h : FileHandle) (bytes : List Byte) : Except Err Disk :=
  if h.closed then .error .closed
  else .ok { d with files := setKey h.index ((d.files.lookup h.index).getD [] ++ bytes) d.files }

/-- The loop of `create`: the first index from `i` on whose file does not exist; `fuel`
bounds the number of indices tried. -/
def createLoop (d : Disk) : Nat → Int → Option Int
  | 0, _ => none
  | fuel + 1, i => if d.fileExists i then createLoop d fuel (i + 1) else some i

/-- `create`: the first index from 0 on whose file does not exist is created.  The
directory holds `d.files.length` files, so one of the first `d.files.length + 1` indices is
free.  Returns the file and its index. -/
def create (d : Disk) : Except Err (FileHandle × Int × Disk) :=
  match createLoop d (d.files.length + 1) 0 with
  | none => .error .panic
  | some i =>
    match d.AppendFile i with
    | .error e => .error e
    | .ok (out, d1) => .ok (out, i, d1)

/-- The loop `for i := 999; i >= 0; i--` of `getCurrentBinLogFile`: `scanLoop d n` runs
the iterations for `i = n - 1` down to `i = 0`.  The state is `shouldExists` and `index`;
the loop returns the error `binlog loss` when a file is missing below an existing one. -/
def scanLoop (d : Disk) : Nat → Bool → Int → Except Err (Bool × Int)
  | 0, shouldExists, index => .ok (shouldExists, index)
  | n + 1, shouldExists, index =>
    let i : Int := n
    let found := !shouldExists && d.fileExists i
    let index1 := if found then i else index
    let shouldExists1 := if found then true else shouldExists
    if shouldExists1 && !d.fileExists i then .error .binlogLoss
    else scanLoop d n shouldExists1 index1

/-- `getCurrentBinLogFile`: returns the file to write to, its record count and its index.
The segments are scanned from 999 down; with no segment one is created; the latest
segment is opened and closed again to look at it, its count is read from the side index,
and a segment at or above `MAX_BINLOG_SIZE` is followed by a new one. -/
def getCurrentBinLogFile (d : Disk) : Except Err (FileHandle × Int × Int × Disk) :=
  match scanLoop d 1000 false 0 with
  | .error e => .error e
  | .ok (shouldExists, index) =>
    if !shouldExists then
      match create d with
      | .error e => .error e
      | .ok (ret, index1, d1) => .ok (ret, 0, index1, d1)
    else if d.failOpen then .error .openFailed
    else
      let binlogSize := d.GetRecords index
      if binlogSize ≥ MAX_BINLOG_SIZE then
        match create d with
        | .error e => .error e
        | .ok (ret, index1, d1) => .ok (ret, 0, index1, d1)
      else
        match d.AppendFile index with
        | .error e => .error e
        | .ok (ret, d1) => .ok (ret, binlogSize, index, d1)

/-! ## The manager -/

/-- The fields of `localBinlogManager` that carry state (`lengthBuffer` is never used and
the lock is not modelled). -/
structure localBinlogManager where
  currentBinLogFile : Option FileHandle
  binlogSize : Int
  buffer : List Byte
  singleBinlogBuffer : List Byte
  currentIndex : Int
deriving DecidableEq

/-- `TryFixBinlogFile`: a line feed is appended to the current segment. -/
def TryFixBinlogFile (d : Disk) : Option Err × Disk :=
  match getCurrentBinLogFile d with
  | .error e => (some e, d)
  | .ok (newFile, _, _, d1) =>
    match d1.appendTo newFile [LF] with
    | .error e => (some e, d1)
    | .ok d2 => (none, d2)

/-- `NewXBinlogManager(LOCAL_BINLOG_MANAGER)`: the new manager, and the data directory
after the deferred `TryFixBinlogFile`. -/
def NewXBinlogManager (d : Disk) : localBinlogManager × Disk :=
  ({ currentBinLogFile := none, binlogSize := 0, buffer := [],
     singleBinlogBuffer := freshBuffer, currentIndex := 0 },
   (TryFixBinlogFile d).2)

/-- `localBinlogManager.Write`.  Returns the error (`none` for `nil`), the manager and the
data directory after the call.  An empty batch does nothing.  Without an open file, or
with a count at or above `MAX_BINLOG_SIZE`, the open file is closed and the file to write
to comes from `getCurrentBinLogFile`.  The batch is encoded by `writeLoop`, written in one
call, the count is incremented and stored in the side index; `m.buffer` is reset on the
way out. -/
def Write (m : localBinlogManager) (d : Disk) (bin : List BingLog) :
    Option Err × localBinlogManager × Disk :=
  if bin.length = 0 then (none, m, d)
  else
    let rotate := m.currentBinLogFile = none ∨ m.binlogSize ≥ MAX_BINLOG_SIZE
    let closeErr : Option Err :=
      if rotate then
        match m.currentBinLogFile with
        | some f => if f.closed then some .closed else none
        | none => none
      else none
    match closeErr with
    | some e => (some e, m, d)
    | none =>
      let mc : localBinlogManager :=
        if rotate then
          { m with currentBinLogFile := m.currentBinLogFile.map fun f => { f with closed := true } }
        else m
      let opened : Except Err (localBinlogManager × Disk) :=
        if rotate then
          match getCurrentBinLogFile d with
          | .error e => .error e
          | .ok (newFile, binLogSize, index, d1) =>
            .ok ({ mc with currentBinLogFile := some newFile, binlogSize := binLogSize,
                           currentIndex := index }, d1)
        else .ok (mc, d)
      match opened with
      | .error e => (some e, mc, d)
      | .ok (m1, d1) =>
        let (single, buffer) := writeLoop m1.singleBinlogBuffer m1.buffer bin
        let m2 := { m1 with singleBinlogBuffer := single, buffer := [] }
        match m1.currentBinLogFile with
        | none => (some .panic, m2, d1)
        | some f =>
          match d1.appendTo f buffer with
          | .error e => (some e, m2, d1)
          | .ok d2 =>
            let m3 := { m2 with binlogSize := m2.binlogSize + 1 }
            (none, m3, d2.SetRecords m3.currentIndex m3.binlogSize)

/-- `localBinlogManager.Read`: the segment `bin.<fileIndex>` is looked up with `os.Stat`
and read by `readSegment`.  Returns the records, the offset and the error. -/
def Read (codec : LengthCodec) (d : Disk) (fileIndex : Int) (offset : Int) (fetchLine : Int) :
    List BingLogDTO × Int × Option Err :=
  match d.files.lookup fileIndex with
  | none => ([], offset, some .notExist)
  | some content => readSegment codec d.failOpen content offset fetchLine

/-! ## Notions used to state the properties -/

/-- The file-id field of the record buffer after a file id was copied into the zeroed
scratch buffer: the first 86 bytes of the id, followed by zero bytes up to 86. -/
def padFileId (fileId : List Byte) : List Byte :=
  fileId.take 86 ++ List.replicate (86 - fileId.length) 0

/-- The record that the line of `r` holds: `r` with its file id in the 86-byte field. -/
def stored (r : BingLog) : BingLog := { r with FileId := padFileId r.FileId }

/-- A line is valid when the loop of `Read` makes a record of it. -/
def validLine (bs : List Byte) : Bool :=
  match decodeLine bs with
  | .record _ => true
  | _ => false

/-- The number of valid lines among the terminated lines of `data`. -/
def validCount (data : List Byte) : Nat := ((lines data).filter validLine).length

/-- The instance id `"storage1"`. -/
def storage1 : List Byte := [115, 116, 111, 114, 97, 103, 101, 49]

/-- The instance id `"node-A"`. -/
def nodeA : List Byte := [110, 111, 100, 101, 45, 65]

/-- The file id `"f1"`. -/
def f1 : List Byte := [102, 49]

/-- The file id `"f2"`. -/
def f2 : List Byte := [102, 50]

/-- A record of instance `"storage1"`, length 1024 and file id `"f1"`. -/
def sampleA : BingLog :=
  { SourceInstance := ⟨storage1, rfl⟩, FileLength := bigEndian.Length2Bytes 1024, FileId := f1 }

/-- A record of instance `"storage1"`, length 2048 and file id `"f2"`. -/
def sampleB : BingLog :=
  { SourceInstance := ⟨storage1, rfl⟩, FileLength := bigEndian.Length2Bytes 2048, FileId := f2 }

/-- A data directory whose segment `bin.000` holds the lines of `sampleA` and `sampleB`. -/
def twoRecords : Disk :=
  { files := [(0, encodeLine sampleA ++ encodeLine sampleB)], records := [(0, 1)],
    failOpen := false }

/-- A data directory whose segment `bin.000` holds the line of `sampleA` and then two bytes
of an unterminated line. -/
def withTail : Disk :=
  { files := [(0, encodeLine sampleA ++ [65, 66])], records := [(0, 1)], failOpen := false }

/-- A data directory with the segments `bin.000` and `bin.002` and no `bin.001`. -/
def gapDisk : Disk :=
  { files := [(0, [LF]), (2, [LF])], records := [], failOpen := false }

/-- A data directory whose segment `bin.000` is recorded as holding `MAX_BINLOG_SIZE`
records, at a time when opening or creating a file fails. -/
def fullDisk : Disk :=
  { files := [(0, [LF])], records := [(0, MAX_BINLOG_SIZE)], failOpen := true }

/-- The data directory `fullDisk` once opening and creating files works again. -/
def fullDiskRepaired : Disk := { fullDisk with failOpen := false }

/-- A manager that has `bin.000` open and has counted `MAX_BINLOG_SIZE` records. -/
def fullManager : localBinlogManager :=
  { currentBinLogFile := some { index := 0, closed := false }, binlogSize := MAX_BINLOG_SIZE,
    buffer := [], singleBinlogBuffer := freshBuffer, currentIndex := 0 }

/-- The manager `fullManager` after its file was closed. -/
def fullManagerClosed : localBinlogManager :=
  { fullManager with currentBinLogFile := some { index := 0, closed := true } }

/-- Equality of results is decidable. -/
instance instDecidableEqExcept {ε α : Type} [DecidableEq ε] [DecidableEq α] :
    DecidableEq (Except ε α)
  | .ok a, .ok b => if h : a = b then isTrue (by rw [h]) else isFalse (by simpa using h)
  | .error a, .error b => if h : a = b then isTrue (by rw [h]) else isFalse (by simpa using h)
  | .ok _, .error _ => isFalse (by simp)
  | .error _, .ok _ => isFalse (by simp)

/-- Successive calls of `Write`, one for each batch, up to the first error. -/
def writeAll (m : localBinlogManager) (d : Disk) :
    List (List BingLog) → Option Err × localBinlogManager × Disk
  | [] => (none, m, d)
  | bin :: rest =>
    match Write m d bin with
    | (none, m1, d1) => writeAll m1 d1 rest
    | (some e, m1, d1) => (some e, m1, d1)

/-- The call `Read(fileIndex, offset, fetchLine)` made `k + 1` times on an unchanged data
directory, each call starting from the offset the call before returned; the result is that
of the last call. -/
def readRepeat (codec : LengthCodec) (d : Disk) (fileIndex fetchLine : Int) :
    Nat → Int → List BingLogDTO × Int × Option Err
  | 0, offset => Read codec d fileIndex offset fetchLine
  | k + 1, offset =>
    readRepeat codec d fileIndex fetchLine k (Read codec d fileIndex offset fetchLine).2.1

/-- A manager that has `bin.000` open and has counted one record. -/
def openManager : localBinlogManager :=
  { currentBinLogFile := some { index := 0, closed := false }, binlogSize := 1,
    buffer := [], singleBinlogBuffer := freshBuffer, currentIndex := 0 }

/-- The record `sampleA` with the file id `"f1"` followed by a zero byte. -/
def sampleNul : BingLog := { sampleA with FileId := f1 ++ [0] }

/-- The record `sampleB` with the one-byte file id `"f"`. -/
def sampleShort : BingLog := { sampleB with FileId := [102] }

/-- A data directory whose segment `bin.000` is recorded as holding 5 records. -/
def countedDisk : Disk :=
  { files := [(0, [LF])], records := [(0, 5)], failOpen := false }

/-! ## The base64 codec: decoding what was encoded -/

theorem decodeMap_encodeURL (i : Fin 64) : decodeMap (encodeURL.getD i.val 0) = some i.val := by
  revert i; decide

theorem decodeMap_encChar (v : Nat) : decodeMap (encChar v) = some (v % 64) := by
  have := decodeMap_encodeURL ⟨v % 64, Nat.mod_lt _ (by norm_num)⟩
  simpa [encChar] using this

theorem decodeMap_LF : decodeMap LF = none := by decide

theorem quantumBytes_group (b0 b1 b2 : Byte) :
    quantumBytes
      [(b0.val * 65536 + b1.val * 256 + b2.val) / 262144 % 64,
       (b0.val * 65536 + b1.val * 256 + b2.val) / 4096 % 64,
       (b0.val * 65536 + b1.val * 256 + b2.val) / 64 % 64,
       (b0.val * 65536 + b1.val * 256 + b2.val) % 64] = [b0, b1, b2] := by
  have h0 := b0.isLt
  have h1 := b1.isLt
  have h2 := b2.isLt
  simp only [quantumBytes, List.getD_cons_zero, List.getD_cons_succ, List.length_cons,
    List.length_nil]
  simp only [List.take, List.cons.injEq, and_true]
  refine ⟨?_, ?_, ?_⟩ <;> (apply Fin.ext; simp only [Fin.ofNat, Fin.val_mk]; omega)

theorem decodeLoop_group (b0 b1 b2 : Byte) (rest : List Byte) :
    decodeLoop []
      (encChar ((b0.val * 65536 + b1.val * 256 + b2.val) / 262144) ::
       encChar ((b0.val * 65536 + b1.val * 256 + b2.val) / 4096) ::
       encChar ((b0.val * 65536 + b1.val * 256 + b2.val) / 64) ::
       encChar (b0.val * 65536 + b1.val * 256 + b2.val) :: rest) =
    (decodeLoop [] rest).map (fun tl => b0 :: b1 :: b2 :: tl) := by
  simp only [decodeLoop, decodeMap_encChar, List.length_nil, List.nil_append, List.length_cons,
    List.cons_append, List.length_singleton]
  simp [quantumBytes_group]

theorem decode_encode (bs tail : List Byte) (h : bs.length % 3 = 0) :
    decodeLoop [] (EncodeToString bs ++ tail) = (decodeLoop [] tail).map (fun tl => bs ++ tl) := by
  induction bs using EncodeToString.induct with
  | case1 b0 b1 b2 rest ih =>
    have hr : rest.length % 3 = 0 := by simp at h; omega
    simp only [EncodeToString, List.cons_append]
    rw [decodeLoop_group, ih hr]
    cases decodeLoop [] tail <;> simp
  | case2 b0 b1 => simp at h
  | case3 b0 => simp at h
  | case4 => simp [EncodeToString]



theorem EncodeToString_length (bs : List Byte) (h : bs.length % 3 = 0) :
    (EncodeToString bs).length = bs.length / 3 * 4 := by
  induction bs using EncodeToString.induct with
  | case1 b0 b1 b2 rest ih =>
    have hr : rest.length % 3 = 0 := by simp at h; omega
    simp only [EncodeToString, List.length_cons, ih hr]
    omega
  | case2 b0 b1 => simp at h
  | case3 b0 => simp at h
  | case4 => simp [EncodeToString]

theorem EncodeToString_valid (bs : List Byte) : ∀ c ∈ EncodeToString bs, (decodeMap c).isSome := by
  induction bs using EncodeToString.induct with
  | case1 b0 b1 b2 rest ih =>
    intro c hc
    simp only [EncodeToString, List.mem_cons] at hc
    rcases hc with rfl | rfl | rfl | rfl | hc
    all_goals first | exact ih c hc | simp [decodeMap_encChar]
  | case2 b0 b1 => simp [EncodeToString, decodeMap_encChar]
  | case3 b0 => simp [EncodeToString, decodeMap_encChar]
  | case4 => simp [EncodeToString]

theorem quantumBytes_length (dbuf : List Nat) (h : dbuf.length ≤ 4) :
    (quantumBytes dbuf).length = dbuf.length - 1 := by
  simp [quantumBytes]; omega

/-- Decoding `cs ++ [LF]` where all of `cs` is in the alphabet, from a partial quantum. -/
theorem decodeLoop_valid (cs : List Byte) (hv : ∀ c ∈ cs, (decodeMap c).isSome) :
    ∀ dbuf : List Nat, dbuf.length ≤ 3 →
      if (dbuf.length + cs.length) % 4 = 1 then decodeLoop dbuf (cs ++ [LF]) = none
      else ∃ out, decodeLoop dbuf (cs ++ [LF]) = some out ∧
        out.length = (dbuf.length + cs.length) / 4 * 3 + ((dbuf.length + cs.length) % 4 - 1) := by
  induction cs with
  | nil =>
    intro dbuf hd
    simp only [List.nil_append, decodeLoop, decodeMap_LF, true_or, if_true, List.length_nil,
      Nat.add_zero]
    have e1 : dbuf.length % 4 = dbuf.length := Nat.mod_eq_of_lt (by omega)
    have e2 : dbuf.length / 4 = 0 := Nat.div_eq_of_lt (by omega)
    rw [e1, e2]
    by_cases h1 : dbuf.length = 1
    · simp [h1]
    · simp only [h1, if_false]
      exact ⟨_, rfl, by rw [quantumBytes_length _ (by omega)]; omega⟩
  | cons c cs ih =>
    intro dbuf hd
    have hc : (decodeMap c).isSome := hv c (List.mem_cons_self _ _)
    obtain ⟨out, ho⟩ := Option.isSome_iff_exists.mp hc
    have ih1 := ih (fun c hc => hv c (List.mem_cons_of_mem _ hc))
    simp only [List.cons_append, decodeLoop, ho, List.length_cons, List.append_eq]
    by_cases h3 : dbuf.length = 3
    · simp only [h3, if_true]
      have := ih1 [] (by simp)
      simp only [List.length_nil, Nat.zero_add] at this
      have e : (3 + (cs.length + 1)) % 4 = cs.length % 4 := by omega
      rw [e]
      split
      · rename_i h; rw [if_pos h] at this; simp [this]
      · rename_i h
        rw [if_neg h] at this
        obtain ⟨o, ho1, ho2⟩ := this
        refine ⟨_, by rw [ho1]; rfl, ?_⟩
        rw [List.length_append, quantumBytes_length _ (by simp [h3]), ho2]
        simp [h3]; omega
    · simp only [h3, if_false]
      have := ih1 (dbuf ++ [out]) (by simp; omega)
      simp only [List.length_append, List.length_singleton] at this
      have e : dbuf.length + (cs.length + 1) = dbuf.length + 1 + cs.length := by omega
      rw [e]
      exact this

/-! ## The record line -/

theorem goCopy_length (dst src : List Byte) : (goCopy dst src).length = dst.length := by
  simp [goCopy]; omega

theorem fillBuffer_length (buf : List Byte) (r : BingLog) (h : buf.length = 102) :
    (fillBuffer buf r).length = 102 := by
  simp [fillBuffer, goCopy_length, h]

theorem fillBuffer_fresh (r : BingLog) :
    fillBuffer freshBuffer r = r.SourceInstance.data ++ r.FileLength.data ++ padFileId r.FileId := by
  have h1 := r.SourceInstance.size_eq
  have h2 := r.FileLength.size_eq
  simp only [fillBuffer, goCopy, freshBuffer, LOCAL_BINLOG_SIZE, padFileId, List.take_replicate,
    List.drop_replicate, List.length_replicate, h1, h2]
  have e1 : min 8 102 = 8 := rfl
  have e2 : min 8 (102 - 8) = 8 := rfl
  have e3 : 102 - 16 = 86 := rfl
  rw [e1, e2, e3, List.take_of_length_le (le_of_eq h1), List.take_of_length_le (le_of_eq h2)]
  simp

theorem padFileId_length (fileId : List Byte) : (padFileId fileId).length = 86 := by
  simp [padFileId]; omega

theorem encodeLine_eq (r : BingLog) :
    encodeLine r = EncodeToString (fillBuffer freshBuffer r) ++ [LF] := by
  simp [encodeLine, writeLoop]

theorem freshBuffer_length : freshBuffer.length = 102 := by
  simp [freshBuffer, LOCAL_BINLOG_SIZE]

theorem encodeLine_length (r : BingLog) : (encodeLine r).length = 137 := by
  rw [encodeLine_eq, List.length_append,
    EncodeToString_length _ (by rw [fillBuffer_length _ _ freshBuffer_length]),
    fillBuffer_length _ _ freshBuffer_length]
  rfl

theorem Copy8_data (b : Bytes8) (tl : List Byte) : Copy8 (b.data ++ tl) = some b := by
  obtain ⟨data, h⟩ := b
  match data, h with
  | [b0, b1, b2, b3, b4, b5, b6, b7], _ => rfl

/-- The loop body of `Read` turns the line of a 102-byte buffer back into its three fields. -/
theorem decodeLine_encode (si fl : Bytes8) (fid : List Byte) (h : fid.length = 86) :
    decodeLine (EncodeToString (si.data ++ fl.data ++ fid) ++ [LF]) =
      .record { SourceInstance := si, FileLength := fl, FileId := fid } := by
  have hl : (si.data ++ fl.data ++ fid).length = 102 := by
    simp [si.size_eq, fl.size_eq, h]
  have hd : DecodeString (EncodeToString (si.data ++ fl.data ++ fid) ++ [LF]) =
      some (si.data ++ fl.data ++ fid) := by
    rw [DecodeString, decode_encode _ _ (by rw [hl])]
    simp [decodeLoop, decodeMap_LF, quantumBytes]
  have hlen : ¬ (EncodeToString (si.data ++ fl.data ++ fid) ++ [LF]).length < 2 := by
    rw [List.length_append, EncodeToString_length _ (by rw [hl]), hl]
    simp
  have t8 : (si.data ++ fl.data ++ fid).take 8 = si.data := by
    rw [List.append_assoc, List.take_append_of_le_length (by rw [si.size_eq]),
      List.take_of_length_le (by rw [si.size_eq])]
  have d8 : (si.data ++ fl.data ++ fid).drop 8 = fl.data ++ fid := by
    rw [List.append_assoc, List.drop_append_of_le_length (by rw [si.size_eq]),
      List.drop_of_length_le (by rw [si.size_eq]), List.nil_append]
  have t16 : (fl.data ++ fid).take 8 = fl.data := by
    rw [List.take_append_of_le_length (by rw [fl.size_eq]),
      List.take_of_length_le (by rw [fl.size_eq])]
  have d16 : (si.data ++ fl.data ++ fid).drop 16 = fid := by
    have : (16 : Nat) = 8 + 8 := rfl
    rw [this, ← List.drop_drop, d8, List.drop_append_of_le_length (by rw [fl.size_eq]),
      List.drop_of_length_le (by rw [fl.size_eq]), List.nil_append]
  have c1 : Copy8 si.data = some si := by simpa using Copy8_data si []
  have c2 : Copy8 fl.data = some fl := by simpa using Copy8_data fl []
  unfold decodeLine
  rw [if_neg hlen, hd]
  simp only [hl, LOCAL_BINLOG_SIZE, ne_eq, not_true_eq_false, if_false, t8, d8, t16, d16, c1, c2]

theorem decodeLine_encodeLine (r : BingLog) : decodeLine (encodeLine r) = .record (stored r) := by
  rw [encodeLine_eq, fillBuffer_fresh, decodeLine_encode _ _ _ (padFileId_length _)]
  rfl

/-! ## Lines -/

theorem linesFrom_append (cur l rest : List Byte) (h : LF ∉ l) :
    linesFrom cur (l ++ LF :: rest) = (cur ++ l ++ [LF]) :: lines rest := by
  induction l generalizing cur with
  | nil => simp [linesFrom, lines]
  | cons c l ih =>
    have hc : c ≠ LF := fun e => h (by simp [e])
    have hl : LF ∉ l := fun e => h (by simp [e])
    simp only [List.cons_append, linesFrom, hc, if_false, List.append_eq]
    rw [ih _ hl]
    simp

theorem lines_append (l rest : List Byte) (h : LF ∉ l) :
    lines (l ++ LF :: rest) = (l ++ [LF]) :: lines rest := by
  simpa using linesFrom_append [] l rest h

/-- The first line that `linesFrom` returns is a prefix of the data, and the lines after
it are the lines of what follows. -/
theorem linesFrom_cons (data : List Byte) :
    ∀ cur l ls, linesFrom cur data = l :: ls →
      ∃ pre data1, data = pre ++ LF :: data1 ∧ l = cur ++ pre ++ [LF] ∧ lines data1 = ls := by
  induction data with
  | nil => intro cur l ls h; simp [linesFrom] at h
  | cons c data ih =>
    intro cur l ls h
    by_cases hc : c = LF
    · subst hc
      simp only [linesFrom, if_true, List.cons.injEq] at h
      exact ⟨[], data, by simp, by simp [h.1], h.2⟩
    · simp only [linesFrom, hc, if_false] at h
      obtain ⟨pre, data1, h1, h2, h3⟩ := ih _ _ _ h
      exact ⟨c :: pre, data1, by simp [h1], by simp [h2], h3⟩

theorem lines_cons (data l : List Byte) (ls : List (List Byte)) (h : lines data = l :: ls) :
    ∃ data1, data = l ++ data1 ∧ lines data1 = ls ∧ ∃ pre, l = pre ++ [LF] := by
  obtain ⟨pre, data1, h1, h2, h3⟩ := linesFrom_cons data [] l ls h
  exact ⟨data1, by simp [h1, h2], h3, pre, by simpa using h2⟩

/-- The first `k` lines are a prefix of the data, and the other lines are the lines of
what follows them. -/
theorem lines_split (k : Nat) : ∀ data : List Byte,
    ∃ data1, data = ((lines data).take k).flatten ++ data1 ∧ lines data1 = (lines data).drop k := by
  induction k with
  | zero => intro data; exact ⟨data, by simp, by simp⟩
  | succ k ih =>
    intro data
    cases h : lines data with
    | nil => exact ⟨data, by simp, by simp [h]⟩
    | cons l ls =>
      obtain ⟨data1, h1, h2, _⟩ := lines_cons data l ls h
      obtain ⟨data2, h3, h4⟩ := ih data1
      rw [h2] at h3 h4
      refine ⟨data2, ?_, by simpa using h4⟩
      rw [List.take_succ_cons, List.flatten_cons, List.append_assoc, ← h3, ← h1]

theorem lines_drop (k : Nat) (data : List Byte) :
    lines (data.drop ((lines data).take k).flatten.length) = (lines data).drop k := by
  obtain ⟨data1, h1, h2⟩ := lines_split k data
  rw [← h2]
  generalize ((lines data).take k).flatten = p at h1
  subst h1
  simp

theorem lines_take_length_le (k : Nat) (data : List Byte) :
    ((lines data).take k).flatten.length ≤ data.length := by
  obtain ⟨data1, h1, _⟩ := lines_split k data
  have := congrArg List.length h1
  rw [List.length_append] at this
  omega

theorem lines_ends_LF (data : List Byte) : ∀ l ∈ lines data, ∃ pre, l = pre ++ [LF] := by
  suffices h : ∀ (ls : List (List Byte)) (data : List Byte), lines data = ls →
      ∀ l ∈ ls, ∃ pre, l = pre ++ [LF] from h _ data rfl
  intro ls
  induction ls with
  | nil => intro _ _ l hl; simp at hl
  | cons l0 ls ih =>
    intro data h l hl
    obtain ⟨data1, _, h2, h3⟩ := lines_cons data l0 ls h
    rcases List.mem_cons.mp hl with rfl | hl
    · exact h3
    · exact ih data1 h2 l hl

/-- A non-empty run of leading lines ends in a line feed, which is a byte of the data. -/
theorem lines_take_last (k : Nat) (data : List Byte)
    (h : 0 < ((lines data).take k).flatten.length) :
    data[((lines data).take k).flatten.length - 1]? = some LF := by
  obtain ⟨data1, h1, _⟩ := lines_split k data
  have hj : ∃ pre, ((lines data).take k).flatten = pre ++ [LF] := by
    have hall : ∀ l ∈ (lines data).take k, ∃ pre, l = pre ++ [LF] :=
      fun l hl => lines_ends_LF data l (List.mem_of_mem_take hl)
    generalize (lines data).take k = ls at h hall
    induction ls using List.reverseRecOn with
    | nil => simp at h
    | append_singleton ls l _ =>
      obtain ⟨pre, hp⟩ := hall l (by simp)
      exact ⟨ls.flatten ++ pre, by simp [hp]⟩
  obtain ⟨pre, hp⟩ := hj
  generalize ((lines data).take k).flatten = p at h1 hp
  subst h1 hp
  simp [List.getElem_append_right]

/-! ## The loop of `Read` -/

/-- The loop does not depend on where its counters start. -/
theorem readLoop_shift (n d x : Int) (acc0 : List BingLog) (ls : List (List Byte)) :
    ∀ (fwd rl : Int) (acc : List BingLog),
      readLoop (n + d) ls (fwd + x) (rl + d) (acc0 ++ acc) =
        (readLoop n ls fwd rl acc).map (fun p => (acc0 ++ p.1, p.2 + x)) := by
  induction ls with
  | nil => intro fwd rl acc; rfl
  | cons bs rest ih =>
    intro fwd rl acc
    simp only [readLoop]
    cases decodeLine bs with
    | skip =>
      have := ih (fwd + bs.length) rl acc
      rw [← this, show fwd + x + (bs.length : Int) = fwd + bs.length + x by ring]
    | fail e => rfl
    | record bl =>
      simp only
      by_cases h : rl + 1 ≥ n
      · have h1 : rl + d + 1 ≥ n + d := by omega
        rw [if_pos h, if_pos h1]
        simp [Except.map]
        ring
      · have h1 : ¬ rl + d + 1 ≥ n + d := by omega
        rw [if_neg h, if_neg h1]
        have := ih (fwd + bs.length) (rl + 1) (acc ++ [bl])
        rw [← this, show fwd + x + (bs.length : Int) = fwd + bs.length + x by ring,
          show rl + d + 1 = rl + 1 + d by ring, List.append_assoc]

/-- A loop that ended without error consumed some leading lines: `forwardOffset` grew by
their total length.  With a larger limit the loop reaches the same state after those
lines; and either the limit was reached or no line is left. -/
theorem readLoop_resume (n m : Int) (hm : 1 ≤ m) (ls : List (List Byte)) :
    ∀ (fwd rl : Int) (acc c1 : List BingLog) (f1 : Int), rl < n →
      readLoop n ls fwd rl acc = .ok (c1, f1) →
      ∃ (k : Nat) (rl1 : Int), f1 = fwd + ((ls.take k).flatten.length : Int) ∧
        readLoop (n + m) ls fwd rl acc = readLoop (n + m) (ls.drop k) f1 rl1 c1 ∧
        (rl1 = n ∨ ls.drop k = []) := by
  induction ls with
  | nil =>
    intro fwd rl acc c1 f1 _ h
    simp only [readLoop, Except.ok.injEq, Prod.mk.injEq] at h
    exact ⟨0, rl, by simp [h.2], by simp [readLoop, h.1, h.2], Or.inr rfl⟩
  | cons bs rest ih =>
    intro fwd rl acc c1 f1 hrl h
    simp only [readLoop] at h
    cases hd : decodeLine bs with
    | skip =>
      rw [hd] at h
      obtain ⟨k, rl1, h1, h2, h3⟩ := ih _ _ _ _ _ hrl h
      refine ⟨k + 1, rl1, ?_, ?_, by simpa using h3⟩
      · rw [h1]; simp; ring
      · simp only [readLoop, hd, List.drop_succ_cons]; exact h2
    | fail e => rw [hd] at h; simp at h
    | record bl =>
      rw [hd] at h
      simp only at h
      by_cases hc : rl + 1 ≥ n
      · rw [if_pos hc] at h
        simp only [Except.ok.injEq, Prod.mk.injEq] at h
        refine ⟨1, rl + 1, by simp [← h.2], ?_, Or.inl (by omega)⟩
        have h1 : ¬ rl + 1 ≥ n + m := by omega
        simp only [readLoop, hd, if_neg h1, List.drop_succ_cons, List.drop_zero, h.1, h.2]
      · rw [if_neg hc] at h
        obtain ⟨k, rl1, h1, h2, h3⟩ := ih _ _ _ _ _ (by omega) h
        refine ⟨k + 1, rl1, ?_, ?_, by simpa using h3⟩
        · rw [h1]; simp; ring
        · have h4 : ¬ rl + 1 ≥ n + m := by omega
          simp only [readLoop, hd, if_neg h4, List.drop_succ_cons]; exact h2

/-- A loop that ended without error consumed some leading lines. -/
theorem readLoop_consumed (n : Int) (ls : List (List Byte)) :
    ∀ (fwd rl : Int) (acc c1 : List BingLog) (f1 : Int),
      readLoop n ls fwd rl acc = .ok (c1, f1) →
      ∃ k : Nat, f1 = fwd + ((ls.take k).flatten.length : Int) := by
  induction ls with
  | nil =>
    intro fwd rl acc c1 f1 h
    simp only [readLoop, Except.ok.injEq, Prod.mk.injEq] at h
    exact ⟨0, by simp [h.2]⟩
  | cons bs rest ih =>
    intro fwd rl acc c1 f1 h
    simp only [readLoop] at h
    cases hd : decodeLine bs with
    | skip =>
      rw [hd] at h
      obtain ⟨k, h1⟩ := ih _ _ _ _ _ h
      exact ⟨k + 1, by rw [h1]; simp; ring⟩
    | fail e => rw [hd] at h; simp at h
    | record bl =>
      rw [hd] at h
      simp only at h
      by_cases hc : rl + 1 ≥ n
      · rw [if_pos hc] at h
        simp only [Except.ok.injEq, Prod.mk.injEq] at h
        exact ⟨1, by simp [← h.2]⟩
      · rw [if_neg hc] at h
        obtain ⟨k, h1⟩ := ih _ _ _ _ _ h
        exact ⟨k + 1, by rw [h1]; simp; ring⟩

/-- A loop that ended without error pushed as many records as the limit allows and the
valid lines provide. -/
theorem readLoop_count (n : Int) (ls : List (List Byte)) :
    ∀ (fwd rl : Int) (acc c1 : List BingLog) (f1 : Int), rl < n →
      readLoop n ls fwd rl acc = .ok (c1, f1) →
      (c1.length : Int) = acc.length + min (n - rl) ((ls.filter validLine).length : Int) := by
  induction ls with
  | nil =>
    intro fwd rl acc c1 f1 hrl h
    simp only [readLoop, Except.ok.injEq, Prod.mk.injEq] at h
    simp [← h.1]; omega
  | cons bs rest ih =>
    intro fwd rl acc c1 f1 hrl h
    simp only [readLoop] at h
    cases hd : decodeLine bs with
    | skip =>
      rw [hd] at h
      have hv : validLine bs = false := by simp [validLine, hd]
      rw [List.filter_cons_of_neg (by simp [hv])]
      exact ih _ _ _ _ _ hrl h
    | fail e => rw [hd] at h; simp at h
    | record bl =>
      rw [hd] at h
      simp only at h
      have hv : validLine bs = true := by simp [validLine, hd]
      rw [List.filter_cons_of_pos hv]
      by_cases hc : rl + 1 ≥ n
      · rw [if_pos hc] at h
        simp only [Except.ok.injEq, Prod.mk.injEq] at h
        simp [← h.1]; omega
      · rw [if_neg hc] at h
        have := ih _ _ _ _ _ (by omega) h
        rw [this]
        simp; omega

/-! ## Reading back what was written -/

theorem LF_not_mem_EncodeToString (bs : List Byte) : LF ∉ EncodeToString bs := by
  intro h
  have := EncodeToString_valid bs LF h
  rw [decodeMap_LF] at this
  simp at this

theorem lines_nil : lines [] = [] := rfl

theorem lines_encodeLine_append (r : BingLog) (rest : List Byte) :
    lines (encodeLine r ++ rest) = encodeLine r :: lines rest := by
  rw [encodeLine_eq, List.append_assoc, List.singleton_append,
    lines_append _ _ (LF_not_mem_EncodeToString _)]

theorem readLoop_encodeLine (n : Int) (r : BingLog) (rest : List (List Byte)) (fwd rl : Int)
    (acc : List BingLog) :
    readLoop n (encodeLine r :: rest) fwd rl acc =
      if rl + 1 ≥ n then .ok (acc ++ [stored r], fwd + 137)
      else readLoop n rest (fwd + 137) (rl + 1) (acc ++ [stored r]) := by
  simp only [readLoop, decodeLine_encodeLine, encodeLine_length]
  rfl

theorem Copy8_of_length (src : List Byte) (h : src.length = 8) : Copy8 src = some ⟨src, h⟩ := by
  simpa using Copy8_data ⟨src, h⟩ []

theorem padFileId_of_le (fileId : List Byte) (h : fileId.length ≤ 86) :
    padFileId fileId = fileId ++ List.replicate (86 - fileId.length) 0 := by
  rw [padFileId, List.take_of_length_le h]

/-- What `Read` returns on a segment that holds the line of one record. -/
theorem readSegment_encodeLine (codec : LengthCodec) (r : BingLog) (fetchLine : Int) :
    readSegment codec false (encodeLine r) 0 fetchLine = ([toDTO codec (stored r)], 137, none) := by
  have hl : ¬ ((encodeLine r).length : Int) ≤ 0 := by rw [encodeLine_length]; decide
  have hlines : lines (encodeLine r) = [encodeLine r] := by
    have := lines_encodeLine_append r []
    simpa [lines_nil] using this
  unfold readSegment
  rw [if_neg hl]
  simp only [Bool.false_eq_true, if_false, lt_self_iff_false, Int.toNat_zero, List.drop_zero,
    hlines, readLoop_encodeLine]
  by_cases h : (0 : Int) + 1 ≥ fetchLine
  · rw [if_pos h]; rfl
  · rw [if_neg h]; rfl

/-- The truncated line: the first `k` characters of the line of `c`, and a line feed. -/
theorem decodeLine_truncated (c : BingLog) (k : Nat) (hk : k < 136) (h4 : k % 4 ≠ 1) :
    decodeLine ((encodeLine c).take k ++ [LF]) = .skip := by
  have hlen : (EncodeToString (fillBuffer freshBuffer c)).length = 136 := by
    rw [EncodeToString_length _ (by rw [fillBuffer_length _ _ freshBuffer_length]),
      fillBuffer_length _ _ freshBuffer_length]
  have htake : (encodeLine c).take k = (EncodeToString (fillBuffer freshBuffer c)).take k := by
    rw [encodeLine_eq, List.take_append_of_le_length (by omega)]
  have hvalid : ∀ x ∈ (encodeLine c).take k, (decodeMap x).isSome := by
    intro x hx
    rw [htake] at hx
    exact EncodeToString_valid _ x (List.mem_of_mem_take hx)
  have hklen : ((encodeLine c).take k).length = k := by
    rw [htake, List.length_take, hlen]; omega
  have hdec := decodeLoop_valid _ hvalid [] (by simp)
  simp only [List.length_nil, Nat.zero_add, hklen, if_neg h4] at hdec
  obtain ⟨out, ho1, ho2⟩ := hdec
  unfold decodeLine
  by_cases h2 : ((encodeLine c).take k ++ [LF]).length < 2
  · rw [if_pos h2]
  · rw [if_neg h2, DecodeString, ho1]
    have : out.length ≠ LOCAL_BINLOG_SIZE := by
      rw [ho2, LOCAL_BINLOG_SIZE]; omega
    simp only [this, ne_eq, not_false_eq_true, if_true]

theorem decodeLine_truncated_bad (c : BingLog) (k : Nat) (hk : k < 136) (h4 : k % 4 = 1) :
    decodeLine ((encodeLine c).take k ++ [LF]) = .fail .corruptInput := by
  have hlen : (EncodeToString (fillBuffer freshBuffer c)).length = 136 := by
    rw [EncodeToString_length _ (by rw [fillBuffer_length _ _ freshBuffer_length]),
      fillBuffer_length _ _ freshBuffer_length]
  have htake : (encodeLine c).take k = (EncodeToString (fillBuffer freshBuffer c)).take k := by
    rw [encodeLine_eq, List.take_append_of_le_length (by omega)]
  have hvalid : ∀ x ∈ (encodeLine c).take k, (decodeMap x).isSome := by
    intro x hx
    rw [htake] at hx
    exact EncodeToString_valid _ x (List.mem_of_mem_take hx)
  have hklen : ((encodeLine c).take k).length = k := by
    rw [htake, List.length_take, hlen]; omega
  have hdec := decodeLoop_valid _ hvalid [] (by simp)
  simp only [List.length_nil, Nat.zero_add, hklen, if_pos h4] at hdec
  unfold decodeLine
  have h2 : ¬ ((encodeLine c).take k ++ [LF]).length < 2 := by
    rw [List.length_append, hklen]; simp; omega
  rw [if_neg h2, DecodeString, hdec]

theorem lines_three (a b c : BingLog) (k : Nat) (hk : k < 136) :
    lines (encodeLine a ++ ((encodeLine c).take k ++ [LF]) ++ encodeLine b) =
      [encodeLine a, (encodeLine c).take k ++ [LF], encodeLine b] := by
  have hlen : (EncodeToString (fillBuffer freshBuffer c)).length = 136 := by
    rw [EncodeToString_length _ (by rw [fillBuffer_length _ _ freshBuffer_length]),
      fillBuffer_length _ _ freshBuffer_length]
  have htake : (encodeLine c).take k = (EncodeToString (fillBuffer freshBuffer c)).take k := by
    rw [encodeLine_eq, List.take_append_of_le_length (by omega)]
  have hLF : LF ∉ (encodeLine c).take k := by
    rw [htake]
    exact fun h => LF_not_mem_EncodeToString _ (List.mem_of_mem_take h)
  have hb : lines (encodeLine b) = [encodeLine b] := by
    simpa [lines_nil] using lines_encodeLine_append b []
  rw [List.append_assoc, lines_encodeLine_append, List.append_assoc, List.singleton_append,
    lines_append _ _ hLF, hb]

/-! ## C1: the round trip of the record codec -/

/-- C1, as stated, fails.  A record of instance `"storage1"`, length 1024 and file id `"f1"`
is built, written and read back: the file id that comes back is not `"f1"` (it is the
86-byte field).  And for the instance id `"node-A"`, of fewer than 8 bytes,
`CreateLocalBinlog` builds no record. -/
theorem C1_roundtrip_counterexample :
    ((CreateLocalBinlog bigEndian f1 1024 storage1).map
        fun r => (readSegment bigEndian false (encodeLine r) 0 1).1) ≠
      some [{ SourceInstance := storage1, FileLength := 1024, FileId := f1 }] ∧
    CreateLocalBinlog bigEndian f1 1024 nodeA = none := by
  constructor
  · rw [show CreateLocalBinlog bigEndian f1 1024 storage1 = some sampleA from by decide]
    simp only [Option.map_some', readSegment_encodeLine]
    decide
  · decide

/-- C1, amended: for an instance id of exactly 8 bytes, a file id of at most 86 bytes and a
file length that the length codec reads back, `CreateLocalBinlog` builds a record, and
reading the line `Write` emits for it from a new manager returns one record with that
instance id, that file length, and the file id followed by zero bytes up to 86 bytes. -/
theorem C1_roundtrip_padded (codec : LengthCodec) (fileId instanceId : List Byte)
    (fileLength fetchLine : Int) (hi : instanceId.length = 8) (hf : fileId.length ≤ 86)
    (hc : codec.Bytes2Length (codec.Length2Bytes fileLength).data = fileLength) :
    ∃ r, CreateLocalBinlog codec fileId fileLength instanceId = some r ∧
      readSegment codec false (encodeLine r) 0 fetchLine =
        ([{ SourceInstance := instanceId, FileLength := fileLength,
            FileId := fileId ++ List.replicate (86 - fileId.length) 0 }], 137, none) := by
  refine ⟨{ FileId := fileId, SourceInstance := ⟨instanceId, hi⟩,
            FileLength := codec.Length2Bytes fileLength }, ?_, ?_⟩
  · have h1 : Copy8 (codec.Length2Bytes fileLength).data = some (codec.Length2Bytes fileLength) := by
      simpa using Copy8_data (codec.Length2Bytes fileLength) []
    simp only [CreateLocalBinlog, h1, Copy8_of_length _ hi]
  · rw [readSegment_encodeLine]
    simp only [toDTO, stored, hc, padFileId_of_le _ hf]

/-- C1, amended, at the instance id `"storage1"`, the length 1024 and the file id `"f1"`. -/
theorem C1_roundtrip_padded_witness :
    ∃ r, CreateLocalBinlog bigEndian f1 1024 storage1 = some r ∧
      readSegment bigEndian false (encodeLine r) 0 1 =
        ([{ SourceInstance := storage1, FileLength := 1024,
            FileId := f1 ++ List.replicate (86 - f1.length) 0 }], 137, none) :=
  C1_roundtrip_padded bigEndian f1 storage1 1024 1 (by decide) (by decide) (by decide)

/-! ## C3: a truncated line between two records -/

theorem readLoop_skip (n : Int) (bs : List Byte) (rest : List (List Byte)) (fwd rl : Int)
    (acc : List BingLog) (h : decodeLine bs = .skip) :
    readLoop n (bs :: rest) fwd rl acc = readLoop n rest (fwd + bs.length) rl acc := by
  simp only [readLoop, h]

theorem readLoop_fail (n : Int) (bs : List Byte) (rest : List (List Byte)) (fwd rl : Int)
    (acc : List BingLog) (e : Err) (h : decodeLine bs = .fail e) :
    readLoop n (bs :: rest) fwd rl acc = .error e := by
  simp only [readLoop, h]

theorem readLoop_nil (n fwd rl : Int) (acc : List BingLog) :
    readLoop n [] fwd rl acc = .ok (acc, fwd) := rfl

/-- What `Read` does once the segment is found and is not empty, for offset 0. -/
theorem Read_zero (codec : LengthCodec) (d : Disk) (fileIndex : Int) (content : List Byte)
    (fetchLine : Int) (hd : d.files.lookup fileIndex = some content)
    (hopen : d.failOpen = false) (hsize : 0 < content.length) :
    Read codec d fileIndex 0 fetchLine =
      match readLoop fetchLine (lines content) 0 0 [] with
      | .error e => ([], 0, some e)
      | .ok (container, forwardOffset) => (container.map (toDTO codec), 0 + forwardOffset, none) := by
  have hs : ¬ (content.length : Int) ≤ 0 := by omega
  simp only [Read, hd, hopen, readSegment, if_neg hs, Bool.false_eq_true, if_false,
    lt_self_iff_false, Int.toNat_zero, List.drop_zero]

/-- A truncated line of `k` characters with `k % 4 = 1` makes `Read` fail. -/
theorem Read_truncated_bad (codec : LengthCodec) (d : Disk) (fileIndex : Int)
    (a b c : BingLog) (k : Nat) (fetchLine : Int)
    (hd : d.files.lookup fileIndex =
      some (encodeLine a ++ ((encodeLine c).take k ++ [LF]) ++ encodeLine b))
    (hopen : d.failOpen = false) (hk : k < 136) (h4 : k % 4 = 1) (hn : 2 ≤ fetchLine) :
    Read codec d fileIndex 0 fetchLine = ([], 0, some .corruptInput) := by
  rw [Read_zero codec d fileIndex _ fetchLine hd hopen
      (by simp only [List.length_append, encodeLine_length]; omega),
    lines_three _ _ _ k hk, readLoop_encodeLine, if_neg (by omega),
    readLoop_fail _ _ _ _ _ _ _ (decodeLine_truncated_bad c k hk h4)]

/-- C3, as stated, fails.  The segment holds the line of a record, the first character of
that line followed by a line feed, and the line of a second record.  The base64 decoder
rejects the one-character line, and `Read` returns the error and no record. -/
theorem C3_truncated_line_counterexample :
    Read bigEndian
      { files := [(0, encodeLine sampleA ++ ((encodeLine sampleA).take 1 ++ [LF]) ++
          encodeLine sampleB)], records := [], failOpen := false } 0 0 2 =
      ([], 0, some .corruptInput) :=
  Read_truncated_bad bigEndian _ 0 sampleA sampleB sampleA 1 2 rfl rfl (by decide) (by decide)
    (by decide)

/-- C3, amended: the truncated line is the first `k < 136` characters of the line of some
record and a line feed, where `k` does not leave the remainder 1 modulo 4 (a remainder of
1 is an error of the base64 decoder, and `Read` returns it).  Then reading the segment
that holds the line of `a`, the truncated line and the line of `b`, from offset 0 with a
limit of at least 2, returns no error, the two records of `a` and `b` in that order (with
the file id in its 86-byte field), and the total length of the three lines as offset. -/
theorem C3_truncated_line_skipped (codec : LengthCodec) (d : Disk) (fileIndex : Int)
    (a b c : BingLog) (k : Nat) (fetchLine : Int)
    (hd : d.files.lookup fileIndex =
      some (encodeLine a ++ ((encodeLine c).take k ++ [LF]) ++ encodeLine b))
    (hopen : d.failOpen = false) (hk : k < 136) (h4 : k % 4 ≠ 1) (hn : 2 ≤ fetchLine) :
    Read codec d fileIndex 0 fetchLine =
      ([toDTO codec (stored a), toDTO codec (stored b)],
       ((encodeLine a ++ ((encodeLine c).take k ++ [LF]) ++ encodeLine b).length : Int), none) := by
  have hklen : ((encodeLine c).take k).length = k := by
    rw [List.length_take, encodeLine_length]; omega
  rw [Read_zero codec d fileIndex _ fetchLine hd hopen
      (by simp only [List.length_append, encodeLine_length]; omega),
    lines_three _ _ _ k hk, readLoop_encodeLine, if_neg (by omega),
    readLoop_skip _ _ _ _ _ _ (decodeLine_truncated c k hk h4), readLoop_encodeLine]
  have hlen : (137 : Int) + (((encodeLine c).take k ++ [LF]).length : Int) + 137 =
      ((encodeLine a ++ ((encodeLine c).take k ++ [LF]) ++ encodeLine b).length : Int) := by
    simp only [List.length_append, encodeLine_length]
    push_cast
    ring
  by_cases h : (0 : Int) + 1 + 1 ≥ fetchLine
  · rw [if_pos h]
    simp only [List.nil_append, List.map, List.cons_append, Int.zero_add, hlen]
  · rw [if_neg h, readLoop_nil]
    simp only [List.nil_append, List.map, List.cons_append, Int.zero_add, hlen]

/-- C3, amended, at the records `sampleA` and `sampleB` and the truncated line of the
first 50 characters of the line of `sampleA`. -/
theorem C3_truncated_line_skipped_witness :
    Read bigEndian
      { files := [(0, encodeLine sampleA ++ ((encodeLine sampleA).take 50 ++ [LF]) ++
          encodeLine sampleB)], records := [], failOpen := false } 0 0 2 =
      ([toDTO bigEndian (stored sampleA), toDTO bigEndian (stored sampleB)],
       ((encodeLine sampleA ++ ((encodeLine sampleA).take 50 ++ [LF]) ++
          encodeLine sampleB).length : Int), none) :=
  C3_truncated_line_skipped bigEndian _ 0 sampleA sampleB sampleA 50 2 rfl rfl (by decide)
    (by decide) (by decide)

/-! ## C2: reading in two steps -/

/-- The shape of a successful `readSegment`. -/
theorem readSegment_ok (codec : LengthCodec) (failOpen : Bool) (content : List Byte)
    (offset fetchLine : Int) (recs : List BingLogDTO) (next : Int)
    (h : readSegment codec failOpen content offset fetchLine = (recs, next, none)) :
    ((content.length : Int) ≤ offset ∧ recs = [] ∧ next = offset) ∨
    (offset < content.length ∧ failOpen = false ∧ 0 ≤ offset ∧
      ∃ c f, readLoop fetchLine (lines (content.drop offset.toNat)) 0 0 [] = .ok (c, f) ∧
        recs = c.map (toDTO codec) ∧ next = offset + f) := by
  unfold readSegment at h
  by_cases h1 : (content.length : Int) ≤ offset
  · rw [if_pos h1] at h
    simp only [Prod.mk.injEq, and_true] at h
    exact Or.inl ⟨h1, h.1.symm, h.2.symm⟩
  · rw [if_neg h1] at h
    cases hf : failOpen with
    | true => rw [hf] at h; simp at h
    | false =>
      rw [hf] at h
      simp only [Bool.false_eq_true, if_false] at h
      by_cases h2 : offset < 0
      · rw [if_pos h2] at h; simp at h
      · rw [if_neg h2] at h
        cases hr : readLoop fetchLine (lines (content.drop offset.toNat)) 0 0 [] with
        | error e => rw [hr] at h; simp at h
        | ok p =>
          obtain ⟨c, f⟩ := p
          rw [hr] at h
          simp only [Prod.mk.injEq, and_true] at h
          exact Or.inr ⟨by omega, rfl, by omega, c, f, rfl, h.1.symm, h.2.symm⟩

theorem readSegment_resume (codec : LengthCodec) (failOpen : Bool) (content : List Byte)
    (N : Int) (r1 r2 : List BingLogDTO) (o1 o2 : Int) (hN : 1 ≤ N)
    (h1 : readSegment codec failOpen content 0 N = (r1, o1, none))
    (h2 : readSegment codec failOpen content o1 N = (r2, o2, none)) :
    readSegment codec failOpen content 0 (2 * N) = (r1 ++ r2, o2, none) := by
  rcases readSegment_ok _ _ _ _ _ _ _ h1 with ⟨hs, hr1, ho1⟩ | ⟨hs, hfo, _, c1, f1, hl1, hr1, ho1⟩
  · -- the segment is empty
    subst ho1
    rcases readSegment_ok _ _ _ _ _ _ _ h2 with ⟨_, hr2, ho2⟩ | ⟨hs2, _⟩
    · subst hr1 hr2 ho2
      unfold readSegment
      rw [if_pos hs]
      rfl
    · omega
  · simp only [Int.toNat_zero, List.drop_zero] at hl1
    rw [Int.zero_add] at ho1
    subst ho1
    obtain ⟨k, rl1, hf1, hres, hstop⟩ :=
      readLoop_resume N N hN (lines content) 0 0 [] c1 o1 (by omega) hl1
    rw [Int.zero_add] at hf1
    have hdrop : lines (content.drop o1.toNat) = (lines content).drop k := by
      rw [hf1, Int.toNat_ofNat, lines_drop]
    have h2N : readSegment codec failOpen content 0 (2 * N) =
        match readLoop (N + N) ((lines content).drop k) o1 rl1 c1 with
        | .error e => ([], 0, some e)
        | .ok (container, forwardOffset) =>
          (container.map (toDTO codec), 0 + forwardOffset, none) := by
      unfold readSegment
      rw [if_neg (by omega), hfo]
      simp only [Bool.false_eq_true, if_false, lt_self_iff_false, Int.toNat_zero, List.drop_zero,
        two_mul, hres]
    rw [h2N]
    rcases readSegment_ok _ _ _ _ _ _ _ h2 with ⟨hs2, hr2, ho2⟩ | ⟨hs2, _, _, c2, f2, hl2, hr2, ho2⟩
    · -- the first read reached the end of the segment
      have hnil : content.drop o1.toNat = [] := by
        apply List.drop_of_length_le
        omega
      rw [hnil, lines_nil] at hdrop
      rw [← hdrop, readLoop_nil]
      simp [hr1, hr2, ho2]
    · rw [hdrop] at hl2
      rcases hstop with hrl | hnil
      · have := readLoop_shift N N o1 c1 ((lines content).drop k) 0 0 []
        rw [hl2] at this
        simp only [Int.zero_add, List.append_nil, Except.map] at this
        rw [hrl, this]
        simp [hr1, hr2, ho2, add_comm]
      · rw [hnil] at hl2 ⊢
        rw [readLoop_nil] at hl2 ⊢
        simp only [Except.ok.injEq, Prod.mk.injEq] at hl2
        simp [hr1, hr2, ho2, ← hl2.1, ← hl2.2]

/-- C2: reading `N ≥ 1` records from offset 0 and then `N` records from the returned
offset gives, when both reads succeed, the records of a single read of `2N` records from
offset 0, one sequence after the other; the single read succeeds and ends at the offset
the second read ended at. -/
theorem C2_read_resumable (codec : LengthCodec) (d : Disk) (fileIndex N : Int)
    (r1 r2 : List BingLogDTO) (o1 o2 : Int) (hN : 1 ≤ N)
    (h1 : Read codec d fileIndex 0 N = (r1, o1, none))
    (h2 : Read codec d fileIndex o1 N = (r2, o2, none)) :
    Read codec d fileIndex 0 (2 * N) = (r1 ++ r2, o2, none) := by
  unfold Read at h1 h2 ⊢
  cases hl : d.files.lookup fileIndex with
  | none => rw [hl] at h1; simp at h1
  | some content =>
    rw [hl] at h1 h2
    exact readSegment_resume codec d.failOpen content N r1 r2 o1 o2 hN h1 h2

set_option maxRecDepth 1000000 in
/-- C2 on the segment of `twoRecords`, read one record at a time. -/
theorem C2_read_resumable_witness :
    Read bigEndian twoRecords 0 0 (2 * 1) =
      ([toDTO bigEndian (stored sampleA)] ++ [toDTO bigEndian (stored sampleB)], 274, none) :=
  C2_read_resumable bigEndian twoRecords 0 1 _ _ 137 274 (by decide) (by decide) (by decide)

/-! ## C7: the offset `Read` returns -/

/-- A position that is 0 or follows a line feed lies before any unterminated tail. -/
theorem aligned_le_body (body tail : List Byte) (p : Int) (hLF : LF ∉ tail)
    (hp : p = 0 ∨ (0 < p ∧ (body ++ tail)[(p - 1).toNat]? = some LF)) :
    p ≤ body.length := by
  rcases hp with h0 | ⟨hpos, hget⟩
  · omega
  · by_contra hlt
    have hge : body.length ≤ (p - 1).toNat := by omega
    rw [List.getElem?_append_right hge] at hget
    exact hLF (List.getElem?_mem hget)

theorem readSegment_aligned (codec : LengthCodec) (failOpen : Bool) (content : List Byte)
    (offset fetchLine : Int) (recs : List BingLogDTO) (next : Int)
    (hoff : offset = 0 ∨ (0 < offset ∧ content[(offset - 1).toNat]? = some LF))
    (h : readSegment codec failOpen content offset fetchLine = (recs, next, none)) :
    next ≤ content.length ∧
      (next = offset ∨ (0 < next ∧ content[(next - 1).toNat]? = some LF)) := by
  have hle : offset ≤ content.length := by
    rcases hoff with h0 | ⟨hpos, hget⟩
    · omega
    · have := (List.getElem?_eq_some_iff.mp hget).1
      omega
  rcases readSegment_ok _ _ _ _ _ _ _ h with ⟨_, _, hn⟩ | ⟨hs, _, h0, c, f, hl, _, hn⟩
  · subst hn
    exact ⟨hle, Or.inl rfl⟩
  · obtain ⟨k, hk⟩ := readLoop_consumed _ _ _ _ _ _ _ hl
    rw [Int.zero_add] at hk
    have hlen := lines_take_length_le k (content.drop offset.toNat)
    rw [List.length_drop] at hlen
    refine ⟨by omega, ?_⟩
    by_cases hf : f = 0
    · left; omega
    · right
      have hpos : 0 < ((lines (content.drop offset.toNat)).take k).flatten.length := by omega
      have hlast := lines_take_last k (content.drop offset.toNat) hpos
      rw [List.getElem?_drop] at hlast
      refine ⟨by omega, ?_⟩
      have : (next - 1).toNat =
          offset.toNat + (((lines (content.drop offset.toNat)).take k).flatten.length - 1) := by
        omega
      rw [this]
      exact hlast

/-- C7: for an offset that is 0 or follows a line feed of the segment, a successful `Read`
returns an offset that is at most the size of the segment and that is the offset it was
given or follows a line feed of the segment.  So the returned offset never reaches into an
unterminated trailing line: when the segment is `body ++ tail` with no line feed in `tail`,
the returned offset is at most the length of `body`. -/
theorem C7_read_offset_aligned (codec : LengthCodec) (d : Disk) (fileIndex : Int)
    (content : List Byte) (offset fetchLine : Int) (recs : List BingLogDTO) (next : Int)
    (hd : d.files.lookup fileIndex = some content)
    (hoff : offset = 0 ∨ (0 < offset ∧ content[(offset - 1).toNat]? = some LF))
    (h : Read codec d fileIndex offset fetchLine = (recs, next, none)) :
    next ≤ content.length ∧
      (next = offset ∨ (0 < next ∧ content[(next - 1).toNat]? = some LF)) ∧
      ∀ body tail, content = body ++ tail → LF ∉ tail → next ≤ body.length := by
  unfold Read at h
  rw [hd] at h
  obtain ⟨h1, h2⟩ := readSegment_aligned codec d.failOpen content offset fetchLine recs next hoff h
  refine ⟨h1, h2, ?_⟩
  intro body tail hc hLF
  subst hc
  apply aligned_le_body body tail next hLF
  rcases h2 with h2 | h2
  · rw [h2]; exact hoff
  · exact Or.inr h2

set_option maxRecDepth 1000000 in
/-- C7 on the segment of `withTail`, read from offset 0 with a limit of 5: the returned
offset is 137, the end of the only terminated line. -/
theorem C7_read_offset_aligned_witness :
    (137 : Int) ≤ (encodeLine sampleA ++ [65, 66]).length ∧
      ((137 : Int) = 0 ∨
        (0 < (137 : Int) ∧ (encodeLine sampleA ++ [65, 66])[((137 : Int) - 1).toNat]? = some LF)) ∧
      ∀ body tail, encodeLine sampleA ++ [65, 66] = body ++ tail → LF ∉ tail →
        (137 : Int) ≤ body.length :=
  C7_read_offset_aligned bigEndian withTail 0 (encodeLine sampleA ++ [65, 66]) 0 5
    [toDTO bigEndian (stored sampleA)] 137 rfl (Or.inl rfl) (by decide)

/-! ## C8: the number of records `Read` returns -/

/-- For a limit of at least 1, a successful `Read` returns as many records as the limit
allows and the valid lines after the offset provide. -/
theorem Read_count (codec : LengthCodec) (d : Disk) (fileIndex : Int) (content : List Byte)
    (offset fetchLine : Int) (recs : List BingLogDTO) (next : Int)
    (hd : d.files.lookup fileIndex = some content) (hn : 1 ≤ fetchLine)
    (h : Read codec d fileIndex offset fetchLine = (recs, next, none)) :
    (recs.length : Int) = min fetchLine (validCount (content.drop offset.toNat)) := by
  unfold Read at h
  rw [hd] at h
  rcases readSegment_ok _ _ _ _ _ _ _ h with ⟨hs, hr, _⟩ | ⟨_, _, _, c, f, hl, hr, _⟩
  · have hnil : content.drop offset.toNat = [] := by
      apply List.drop_of_length_le
      omega
    rw [hr, hnil]
    simp [validCount, lines_nil]
    omega
  · have := readLoop_count _ _ _ _ _ _ _ (by omega) hl
    rw [hr, List.length_map, this]
    simp [validCount]

set_option maxRecDepth 1000000 in
/-- `Read_count` on the segment of `twoRecords`, read from offset 0 with a limit of 1. -/
theorem Read_count_witness :
    (([toDTO bigEndian (stored sampleA)] : List BingLogDTO).length : Int) =
      min 1 (validCount ((encodeLine sampleA ++ encodeLine sampleB).drop (0 : Int).toNat)) :=
  Read_count bigEndian twoRecords 0 _ 0 1 _ 137 rfl (by decide) (by decide)

set_option maxRecDepth 1000000 in
/-- C8 fails at a limit of 0: on the segment of `twoRecords`, which holds two valid lines,
`Read` from offset 0 with `fetchLine = 0` succeeds and returns one record, not
`min 0 2 = 0` records. -/
theorem C8_read_limit_zero :
    Read bigEndian twoRecords 0 0 0 = ([toDTO bigEndian (stored sampleA)], 137, none) ∧
      validCount (encodeLine sampleA ++ encodeLine sampleB) = 2 := by
  decide

/-! ## C9: instance ids shorter than 8 bytes -/

/-- C9 fails at the instance id `"node-A"`: `Copy8` reads `src[6]` of a 6-byte source, and
`CreateLocalBinlog` does not return a record, whatever the file id, the length and the
length codec. -/
theorem C9_short_instance_id_panics (codec : LengthCodec) (fileId : List Byte)
    (fileLength : Int) : CreateLocalBinlog codec fileId fileLength nodeA = none := by
  have h : Copy8 nodeA = none := rfl
  simp only [CreateLocalBinlog, h]
  cases Copy8 (codec.Length2Bytes fileLength).data <;> rfl

/-- An instance id of at least 8 bytes is cut to its first 8 bytes. -/
theorem CreateLocalBinlog_truncates (codec : LengthCodec) (fileId instanceId : List Byte)
    (fileLength : Int) (h : 8 ≤ instanceId.length) :
    ∃ r, CreateLocalBinlog codec fileId fileLength instanceId = some r ∧
      r.SourceInstance.data = instanceId.take 8 ∧ r.FileId = fileId ∧
      r.FileLength = codec.Length2Bytes fileLength := by
  have h1 : Copy8 (codec.Length2Bytes fileLength).data = some (codec.Length2Bytes fileLength) := by
    simpa using Copy8_data (codec.Length2Bytes fileLength) []
  have h2 : Copy8 instanceId = some ⟨instanceId.take 8, by simp; omega⟩ := by
    have := Copy8_data ⟨instanceId.take 8, by simp; omega⟩ (instanceId.drop 8)
    simpa using this
  refine ⟨{ FileId := fileId, SourceInstance := ⟨instanceId.take 8, by simp; omega⟩,
            FileLength := codec.Length2Bytes fileLength }, ?_, rfl, rfl, rfl⟩
  simp only [CreateLocalBinlog, h1, h2]

/-- `CreateLocalBinlog_truncates` at the 10-byte instance id `"storage1"` followed by
`"f1"`. -/
theorem CreateLocalBinlog_truncates_witness :
    ∃ r, CreateLocalBinlog bigEndian f1 1024 (storage1 ++ f1) = some r ∧
      r.SourceInstance.data = (storage1 ++ f1).take 8 ∧ r.FileId = f1 ∧
      r.FileLength = bigEndian.Length2Bytes 1024 :=
  CreateLocalBinlog_truncates bigEndian f1 (storage1 ++ f1) 1024 (by decide)

/-! ## C6: the file index -1 -/

/-- `Read` looks up the segment of the index it is given; an index without a segment is an
error of `os.Stat`. -/
theorem Read_missing (codec : LengthCodec) (d : Disk) (fileIndex offset fetchLine : Int)
    (h : d.files.lookup fileIndex = none) :
    Read codec d fileIndex offset fetchLine = ([], offset, some .notExist) := by
  simp only [Read, h]

set_option maxRecDepth 1000000 in
/-- C6 fails on the data directory `twoRecords`, whose only segment is `bin.000`: `Read`
with the index -1 returns the error of `os.Stat`, where `Read` with the index 0 of the
latest segment returns a record. -/
theorem C6_read_minus_one_fails :
    Read bigEndian twoRecords (-1) 0 1 = ([], 0, some .notExist) ∧
      Read bigEndian twoRecords 0 0 1 = ([toDTO bigEndian (stored sampleA)], 137, none) ∧
      twoRecords.files.map Prod.fst = [0] := by
  decide

/-! ## `create` finds a free index -/

theorem lookup_isSome_mem {α : Type} (i : Int) : ∀ l : List (Int × α),
    (l.lookup i).isSome = true → i ∈ l.map Prod.fst := by
  intro l
  induction l with
  | nil => intro h; simp at h
  | cons p l ih =>
    intro h
    obtain ⟨j, w⟩ := p
    by_cases hj : i = j
    · simp [hj]
    · have hb : (i == j) = false := by simpa using hj
      simp only [List.lookup, hb] at h
      simp only [List.map_cons, List.mem_cons]
      exact Or.inr (ih h)

theorem createLoop_none (d : Disk) : ∀ (fuel : Nat) (i : Int), createLoop d fuel i = none →
    ∀ j : Nat, j < fuel → d.fileExists (i + j) = true := by
  intro fuel
  induction fuel with
  | zero => intro i _ j hj; omega
  | succ fuel ih =>
    intro i h j hj
    simp only [createLoop] at h
    split at h
    · rename_i he
      cases j with
      | zero => simpa using he
      | succ j =>
        have := ih (i + 1) h j (by omega)
        rw [show i + 1 + (j : Int) = i + ((j + 1 : Nat) : Int) by push_cast; ring] at this
        exact this
    · simp at h

/-- The loop of `create` does not run out of indices: a directory of `n` files leaves one of
the indices 0 to `n` free. -/
theorem createLoop_isSome (d : Disk) : (createLoop d (d.files.length + 1) 0).isSome = true := by
  cases h : createLoop d (d.files.length + 1) 0 with
  | some i => rfl
  | none =>
    exfalso
    have hall := createLoop_none d _ 0 h
    have hsub : (List.range (d.files.length + 1)).map (fun j : Nat => (j : Int)) ⊆
        d.files.map Prod.fst := by
      intro x hx
      obtain ⟨j, hj, rfl⟩ := List.mem_map.mp hx
      have := hall j (List.mem_range.mp hj)
      rw [Int.zero_add] at this
      exact lookup_isSome_mem _ _ this
    have hnd : ((List.range (d.files.length + 1)).map (fun j : Nat => (j : Int))).Nodup :=
      (List.nodup_range _).map (fun a b hab => by simpa using hab)
    have := (List.subperm_of_subset hnd hsub).length_le
    simp at this

/-! ## C4: the contiguity check of the segment scanner -/

/-- Below an existing segment, the scan fails exactly when a segment is missing. -/
theorem scanLoop_true (d : Disk) (n : Nat) : ∀ idx : Int,
    scanLoop d n true idx = .error .binlogLoss ↔ ∃ i : Nat, i < n ∧ d.fileExists i = false := by
  induction n with
  | zero => intro idx; simp [scanLoop]
  | succ n ih =>
    intro idx
    cases he : d.fileExists (n : Int) with
    | false =>
      simp only [scanLoop, he, Bool.not_true, Bool.false_and, Bool.false_eq_true, if_false,
        Bool.not_false, Bool.and_self, if_true, true_iff]
      exact ⟨n, by omega, he⟩
    | true =>
      simp only [scanLoop, he, Bool.not_true, Bool.false_and, Bool.false_eq_true, if_false,
        Bool.and_false]
      rw [ih]
      constructor
      · rintro ⟨i, hi, hm⟩; exact ⟨i, by omega, hm⟩
      · rintro ⟨i, hi, hm⟩
        have : i ≠ n := fun e => by rw [e, he] at hm; simp at hm
        exact ⟨i, by omega, hm⟩

/-- The scan fails exactly when a segment is missing below an existing one. -/
theorem scanLoop_false (d : Disk) (n : Nat) : ∀ idx : Int,
    scanLoop d n false idx = .error .binlogLoss ↔
      ∃ i j : Nat, i < j ∧ j < n ∧ d.fileExists j = true ∧ d.fileExists i = false := by
  induction n with
  | zero => intro idx; simp [scanLoop]
  | succ n ih =>
    intro idx
    cases he : d.fileExists (n : Int) with
    | false =>
      simp only [scanLoop, he, Bool.not_false, Bool.and_false, Bool.false_eq_true, if_false,
        Bool.and_true]
      rw [ih]
      constructor
      · rintro ⟨i, j, h1, h2, h3, h4⟩; exact ⟨i, j, h1, by omega, h3, h4⟩
      · rintro ⟨i, j, h1, h2, h3, h4⟩
        have : j ≠ n := fun e => by rw [e, he] at h3; simp at h3
        exact ⟨i, j, h1, by omega, h3, h4⟩
    | true =>
      simp only [scanLoop, he, Bool.not_false, Bool.and_self, if_true, Bool.not_true,
        Bool.and_false, Bool.false_eq_true, if_false]
      rw [scanLoop_true]
      constructor
      · rintro ⟨i, hi, hm⟩; exact ⟨i, n, hi, by omega, he, hm⟩
      · rintro ⟨i, j, h1, h2, _, h4⟩; exact ⟨i, by omega, h4⟩

theorem AppendFile_error (d : Disk) (i : Int) (e : Err) (h : d.AppendFile i = .error e) :
    e = .openFailed := by
  unfold Disk.AppendFile at h
  split at h
  · simp only [Except.error.injEq] at h; exact h.symm
  · split at h <;> simp at h

theorem create_error (d : Disk) (e : Err) (h : create d = .error e) : e = .openFailed := by
  unfold create at h
  have hs := createLoop_isSome d
  split at h
  · rename_i hn
    rw [hn] at hs
    simp at hs
  · split at h
    · rename_i e1 he
      simp only [Except.error.injEq] at h
      rw [← h]
      exact AppendFile_error _ _ _ he
    · simp at h

theorem scanLoop_error (d : Disk) (n : Nat) : ∀ (se : Bool) (idx : Int) (e : Err),
    scanLoop d n se idx = .error e → e = .binlogLoss := by
  induction n with
  | zero => intro se idx e h; simp [scanLoop] at h
  | succ n ih =>
    intro se idx e h
    cases se <;> cases he : d.fileExists (n : Int) <;> simp [scanLoop, he] at h
    · exact ih _ _ _ h
    · exact ih _ _ _ h
    · exact h.symm
    · exact ih _ _ _ h

/-- `getCurrentBinLogFile` returns the error `binlog loss` exactly when its scan does. -/
theorem getCurrentBinLogFile_loss (d : Disk) :
    getCurrentBinLogFile d = .error .binlogLoss ↔ scanLoop d 1000 false 0 = .error .binlogLoss := by
  unfold getCurrentBinLogFile
  cases hs : scanLoop d 1000 false 0 with
  | error e =>
    have := scanLoop_error d 1000 false 0 e hs
    subst this
    simp
  | ok p =>
    obtain ⟨se, idx⟩ := p
    simp only [reduceCtorEq, iff_false]
    intro h
    split at h
    · split at h
      · rename_i e he
        simp only [Except.error.injEq] at h
        rw [create_error d e he] at h; simp at h
      · simp at h
    · split at h
      · simp at h
      · split at h
        · split at h
          · rename_i e he
            simp only [Except.error.injEq] at h
            rw [create_error d e he] at h; simp at h
          · simp at h
        · split at h
          · rename_i e he
            simp only [Except.error.injEq] at h
            have h1 := AppendFile_error _ _ _ he
            rw [h1] at h
            simp at h
          · simp at h

/-- C4: `getCurrentBinLogFile` returns the error `invalid binlog state: binlog loss`
exactly when, among the indices 0 to 999, a segment exists and a segment of a smaller
index does not.  In particular it returns that error on `gapDisk`, where `bin.000` and
`bin.002` exist and `bin.001` does not. -/
theorem C4_contiguity_check :
    (∀ d : Disk, getCurrentBinLogFile d = .error .binlogLoss ↔
      ∃ i j : Nat, i < j ∧ j ≤ 999 ∧ d.fileExists j = true ∧ d.fileExists i = false) ∧
    getCurrentBinLogFile gapDisk = .error .binlogLoss := by
  have key : ∀ d : Disk, getCurrentBinLogFile d = .error .binlogLoss ↔
      ∃ i j : Nat, i < j ∧ j ≤ 999 ∧ d.fileExists j = true ∧ d.fileExists i = false := by
    intro d
    rw [getCurrentBinLogFile_loss, scanLoop_false]
    constructor
    · rintro ⟨i, j, h1, h2, h3, h4⟩; exact ⟨i, j, h1, by omega, h3, h4⟩
    · rintro ⟨i, j, h1, h2, h3, h4⟩; exact ⟨i, j, h1, by omega, h3, h4⟩
  refine ⟨key, ?_⟩
  rw [key]
  exact ⟨1, 2, by decide, by decide, by decide, by decide⟩

/-! ## C10: a failed rotation -/

/-- A failed rotation leaves the closed file in the manager. -/
theorem Write_failed_rotation (m : localBinlogManager) (d : Disk) (bin : List BingLog)
    (f : FileHandle) (e : Err) (hf : m.currentBinLogFile = some f) (hc : f.closed = false)
    (hs : m.binlogSize ≥ MAX_BINLOG_SIZE) (hb : bin.length ≠ 0)
    (he : getCurrentBinLogFile d = .error e) :
    Write m d bin =
      (some e, { m with currentBinLogFile := some { f with closed := true } }, d) := by
  simp only [Write, hb, if_false, hf, hs, or_true, if_true, hc, Bool.false_eq_true, he,
    Option.map_some', reduceCtorEq]

/-- With a closed file and a full count every `Write` fails at `Close`, whatever the data
directory: the manager and the data directory are left as they are. -/
theorem Write_closed_stuck (m : localBinlogManager) (d : Disk) (bin : List BingLog)
    (f : FileHandle) (hf : m.currentBinLogFile = some f) (hc : f.closed = true)
    (hs : m.binlogSize ≥ MAX_BINLOG_SIZE) (hb : bin.length ≠ 0) :
    Write m d bin = (some .closed, m, d) := by
  simp only [Write, hb, if_false, hf, hs, or_true, if_true, hc, reduceCtorEq]

set_option maxRecDepth 1000000 in
/-- C10 fails.  `fullManager` has `bin.000` open with a full count, and opening files fails:
`Write` closes the file and returns the error of the scanner.  Once opening files works
again, `getCurrentBinLogFile` would create `bin.001`; but the next `Write` returns the
error of closing the closed file again, and leaves the manager and the data directory
as they are. -/
theorem C10_rotation_not_retried :
    Write fullManager fullDisk [sampleA] = (some .openFailed, fullManagerClosed, fullDisk) ∧
    Write fullManagerClosed fullDiskRepaired [sampleB] =
      (some .closed, fullManagerClosed, fullDiskRepaired) ∧
    getCurrentBinLogFile fullDiskRepaired =
      .ok ({ index := 1, closed := false }, 0, 1,
        { fullDiskRepaired with files := [(0, [LF]), (1, [])] }) := by
  decide

/-! ## C5: the count at rotation -/

/-- The line of any 102-byte buffer is a valid line. -/
theorem decodeLine_buffer (buf : List Byte) (h : buf.length = 102) :
    decodeLine (EncodeToString buf ++ [LF]) =
      .record { SourceInstance := ⟨buf.take 8, by simp [h]⟩,
                FileLength := ⟨(buf.drop 8).take 8, by simp [h]⟩,
                FileId := buf.drop 16 } := by
  have hsplit : buf = buf.take 8 ++ (buf.drop 8).take 8 ++ buf.drop 16 := by
    have h16 : buf.drop 16 = (buf.drop 8).drop 8 := by rw [List.drop_drop]
    rw [h16, List.append_assoc, List.take_append_drop, List.take_append_drop]
  have := decodeLine_encode ⟨buf.take 8, by simp [h]⟩ ⟨(buf.drop 8).take 8, by simp [h]⟩
    (buf.drop 16) (by simp [h])
  simp only at this
  rw [← hsplit] at this
  exact this

theorem validLine_buffer (buf : List Byte) (h : buf.length = 102) :
    validLine (EncodeToString buf ++ [LF]) = true := by
  simp only [validLine, decodeLine_buffer buf h]

theorem writeLoop_buffer (bin : List BingLog) : ∀ single buffer : List Byte,
    (writeLoop single buffer bin).2 = buffer ++ (writeLoop single [] bin).2 := by
  induction bin with
  | nil => intro single buffer; simp [writeLoop]
  | cons r rest ih =>
    intro single buffer
    simp only [writeLoop]
    rw [ih _ (buffer ++ _ ++ _), ih _ ([] ++ _ ++ _)]
    simp

theorem writeLoop_single (bin : List BingLog) : ∀ single buffer buffer1 : List Byte,
    (writeLoop single buffer bin).1 = (writeLoop single buffer1 bin).1 := by
  induction bin with
  | nil => intro single buffer buffer1; rfl
  | cons r rest ih =>
    intro single buffer buffer1
    simp only [writeLoop]
    exact ih _ _ _

theorem writeLoop_single_length (bin : List BingLog) : ∀ single buffer : List Byte,
    single.length = 102 → (writeLoop single buffer bin).1.length = 102 := by
  induction bin with
  | nil => intro single buffer h; exact h
  | cons r rest ih =>
    intro single buffer h
    simp only [writeLoop]
    exact ih _ _ (fillBuffer_length _ _ h)

/-- Every record of a batch becomes one valid line. -/
theorem validCount_writeLoop (bin : List BingLog) (rest : List Byte) :
    ∀ single : List Byte, single.length = 102 →
      validCount ((writeLoop single [] bin).2 ++ rest) = bin.length + validCount rest := by
  induction bin with
  | nil => intro single _; simp [writeLoop]
  | cons r bin ih =>
    intro single h
    have h1 := fillBuffer_length single r h
    simp only [writeLoop, List.nil_append]
    rw [writeLoop_buffer, List.append_assoc, List.append_assoc, List.singleton_append]
    have hl : lines (EncodeToString (fillBuffer single r) ++
        LF :: ((writeLoop (fillBuffer single r) [] bin).2 ++ rest)) =
        (EncodeToString (fillBuffer single r) ++ [LF]) ::
          lines ((writeLoop (fillBuffer single r) [] bin).2 ++ rest) :=
      lines_append _ _ (LF_not_mem_EncodeToString _)
    have ih1 := ih (fillBuffer single r) h1
    simp only [validCount] at ih1 ⊢
    rw [hl, List.filter_cons_of_pos (validLine_buffer _ h1), List.length_cons, ih1,
      List.length_cons]
    omega

theorem validCount_LF (rest : List Byte) : validCount (LF :: rest) = validCount rest := by
  have hl : lines (LF :: rest) = [LF] :: lines rest := by
    simpa using lines_append [] rest (by simp)
  have hv : validLine [LF] = false := by decide
  simp only [validCount, hl]
  rw [List.filter_cons_of_neg (by simp [hv])]

set_option maxRecDepth 1000000 in
theorem NewXBinlogManager_empty :
    NewXBinlogManager Disk.empty =
      ({ currentBinLogFile := none, binlogSize := 0, buffer := [],
         singleBinlogBuffer := freshBuffer, currentIndex := 0 },
       { files := [(0, [LF])], records := [], failOpen := false }) := by
  decide

set_option maxRecDepth 1000000 in
theorem getCurrentBinLogFile_first :
    getCurrentBinLogFile { files := [(0, [LF])], records := [], failOpen := false } =
      .ok ({ index := 0, closed := false }, 0, 0,
        { files := [(0, [LF])], records := [], failOpen := false }) := by
  decide


/-- A `Write` that opens its file: no file was open, and `getCurrentBinLogFile` returns
one. -/
theorem Write_open (m : localBinlogManager) (d d1 : Disk) (bin : List BingLog)
    (f : FileHandle) (size index : Int) (hf : m.currentBinLogFile = none)
    (hb : bin.length ≠ 0) (hg : getCurrentBinLogFile d = .ok (f, size, index, d1))
    (hc : f.closed = false) :
    Write m d bin =
      (none,
       { currentBinLogFile := some f, binlogSize := size + 1, buffer := [],
         singleBinlogBuffer := (writeLoop m.singleBinlogBuffer m.buffer bin).1,
         currentIndex := index },
       { files := setKey f.index ((d1.files.lookup f.index).getD [] ++
           (writeLoop m.singleBinlogBuffer m.buffer bin).2) d1.files,
         records := setKey index (size + 1) d1.records, failOpen := d1.failOpen }) := by
  simp only [Write, hb, if_false, hf, true_or, if_true, hg, Option.map_none', Disk.appendTo, hc,
    Bool.false_eq_true, Disk.SetRecords]

/-- A `Write` that does not rotate: a file is open and the count is below the cap. -/
theorem Write_append (m : localBinlogManager) (d : Disk) (bin : List BingLog)
    (f : FileHandle) (hf : m.currentBinLogFile = some f) (hb : bin.length ≠ 0)
    (hs : m.binlogSize < MAX_BINLOG_SIZE) (hc : f.closed = false) :
    Write m d bin =
      (none,
       { currentBinLogFile := some f, binlogSize := m.binlogSize + 1, buffer := [],
         singleBinlogBuffer := (writeLoop m.singleBinlogBuffer m.buffer bin).1,
         currentIndex := m.currentIndex },
       { files := setKey f.index ((d.files.lookup f.index).getD [] ++
           (writeLoop m.singleBinlogBuffer m.buffer bin).2) d.files,
         records := setKey m.currentIndex (m.binlogSize + 1) d.records,
         failOpen := d.failOpen }) := by
  have hs1 : ¬ m.binlogSize ≥ MAX_BINLOG_SIZE := by omega
  simp only [Write, hb, if_false, hf, reduceCtorEq, hs1, or_self, Disk.appendTo, hc,
    Bool.false_eq_true, Disk.SetRecords]

/-- C5 fails for a grouping into one batch.  From the empty data directory and a new
manager, a `Write` of a batch `r :: rs` of any size (so also of `MAX_BINLOG_SIZE` records)
and then a `Write` of one record both succeed, and afterwards there is one segment,
`bin.000`, which holds all `rs.length + 2` records; the count of the manager and of the
side index is 2. -/
theorem C5_single_batch_no_rotation (r r2 : BingLog) (rs : List BingLog) :
    ∃ (m1 m2 : localBinlogManager) (d1 d2 : Disk) (content : List Byte),
      Write (NewXBinlogManager Disk.empty).1 (NewXBinlogManager Disk.empty).2 (r :: rs) =
        (none, m1, d1) ∧
      Write m1 d1 [r2] = (none, m2, d2) ∧
      d2.files = [(0, content)] ∧ validCount content = rs.length + 2 ∧
      m2.binlogSize = 2 ∧ d2.GetRecords 0 = 2 := by
  have hfresh : (writeLoop freshBuffer [] (r :: rs)).1.length = 102 :=
    writeLoop_single_length _ _ _ freshBuffer_length
  have h1 := Write_open
    { currentBinLogFile := none, binlogSize := 0, buffer := [],
      singleBinlogBuffer := freshBuffer, currentIndex := 0 }
    { files := [(0, [LF])], records := [], failOpen := false } _ (r :: rs) _ 0 0 rfl (by simp)
    getCurrentBinLogFile_first rfl
  dsimp only at h1
  rw [NewXBinlogManager_empty]
  have h2 := Write_append
    { currentBinLogFile := some { index := 0, closed := false }, binlogSize := 0 + 1,
      buffer := [], singleBinlogBuffer := (writeLoop freshBuffer [] (r :: rs)).1,
      currentIndex := 0 }
    { files := setKey (0 : Int) (((([((0 : Int), [LF])] : List (Int × List Byte)).lookup 0).getD [] ++
        (writeLoop freshBuffer [] (r :: rs)).2)) [((0 : Int), [LF])],
      records := setKey 0 (0 + 1) [], failOpen := false }
    [r2] { index := 0, closed := false } rfl (by simp)
    (show (0 : Int) + 1 < MAX_BINLOG_SIZE by decide) rfl
  refine ⟨_, _, _, _, LF :: ((writeLoop freshBuffer [] (r :: rs)).2 ++
      ((writeLoop (writeLoop freshBuffer [] (r :: rs)).1 [] [r2]).2 ++ [])), h1, h2, ?_, ?_, ?_, ?_⟩
  · simp [setKey, List.lookup]
  · rw [validCount_LF, validCount_writeLoop _ _ _ freshBuffer_length,
      validCount_writeLoop _ _ _ hfresh]
    simp [validCount, lines_nil]
  · rfl
  · rfl

/-! ## Rotation after single-record writes -/

/-- A `Write` that rotates: the open file is closed and `getCurrentBinLogFile` returns the
next one. -/
theorem Write_rotate (m : localBinlogManager) (d d1 : Disk) (bin : List BingLog)
    (f f1 : FileHandle) (size index : Int) (hf : m.currentBinLogFile = some f)
    (hc : f.closed = false) (hs : m.binlogSize ≥ MAX_BINLOG_SIZE) (hb : bin.length ≠ 0)
    (hg : getCurrentBinLogFile d = .ok (f1, size, index, d1)) (hc1 : f1.closed = false) :
    Write m d bin =
      (none,
       { currentBinLogFile := some f1, binlogSize := size + 1, buffer := [],
         singleBinlogBuffer := (writeLoop m.singleBinlogBuffer m.buffer bin).1,
         currentIndex := index },
       { files := setKey f1.index ((d1.files.lookup f1.index).getD [] ++
           (writeLoop m.singleBinlogBuffer m.buffer bin).2) d1.files,
         records := setKey index (size + 1) d1.records, failOpen := d1.failOpen }) := by
  simp only [Write, hb, if_false, hf, hs, or_true, if_true, hc, Bool.false_eq_true, hg,
    Option.map_some', Disk.appendTo, hc1, Disk.SetRecords]

/-- The scan of a directory whose only segment is `bin.000` finds it. -/
theorem scanLoop_only_zero (d : Disk) (c : List Byte) (hd : d.files = [(0, c)]) (n : Nat) :
    ∀ idx : Int, scanLoop d (n + 1) false idx = .ok (true, 0) := by
  have hex : ∀ i : Int, d.fileExists i = decide (i = 0) := by
    intro i
    by_cases hi : i = 0
    · simp [Disk.fileExists, hd, List.lookup, hi]
    · have hb : (i == 0) = false := by simpa using hi
      simp [Disk.fileExists, hd, List.lookup, hb, hi]
  induction n with
  | zero =>
    intro idx
    simp [scanLoop, hex]
  | succ n ih =>
    intro idx
    have hn : ((n + 1 : Nat) : Int) ≠ 0 := by omega
    rw [scanLoop]
    simp only [hex, hn, decide_False, Bool.and_false, Bool.false_eq_true, if_false]
    exact ih idx

/-- On a directory whose only segment `bin.000` is recorded as full, `getCurrentBinLogFile`
creates `bin.001`. -/
theorem getCurrentBinLogFile_full (c : List Byte) (n : Int) (hn : n ≥ MAX_BINLOG_SIZE) :
    getCurrentBinLogFile { files := [(0, c)], records := [(0, n)], failOpen := false } =
      .ok ({ index := 1, closed := false }, 0, 1,
        { files := [(0, c), (1, [])], records := [(0, n)], failOpen := false }) := by
  have hscan := scanLoop_only_zero { files := [(0, c)], records := [(0, n)], failOpen := false }
    c rfl 999 0
  have hrec : Disk.GetRecords { files := [(0, c)], records := [(0, n)], failOpen := false } 0 = n := by
    simp [Disk.GetRecords, List.lookup]
  have hcreate : create { files := [(0, c)], records := [(0, n)], failOpen := false } =
      .ok ({ index := 1, closed := false }, 1,
        { files := [(0, c), (1, [])], records := [(0, n)], failOpen := false }) := by
    simp [create, createLoop, Disk.fileExists, List.lookup, Disk.AppendFile, setKey]
  simp only [getCurrentBinLogFile, hscan, Bool.not_true, Bool.false_eq_true, if_false, hrec, hn,
    if_true, hcreate]

/-- Single-record writes below the cap: each one appends a valid line to `bin.000` and
adds 1 to the count. -/
theorem writeAll_singles (rs : List BingLog) :
    ∀ (k : Int) (single c : List Byte) (N : Nat), single.length = 102 →
      k + rs.length ≤ MAX_BINLOG_SIZE →
      (∀ rest, validCount (c ++ rest) = N + validCount rest) →
      ∃ single1 c1, writeAll
          { currentBinLogFile := some { index := 0, closed := false }, binlogSize := k,
            buffer := [], singleBinlogBuffer := single, currentIndex := 0 }
          { files := [(0, c)], records := [(0, k)], failOpen := false }
          (rs.map fun r => [r]) =
        (none,
         { currentBinLogFile := some { index := 0, closed := false },
           binlogSize := k + rs.length, buffer := [], singleBinlogBuffer := single1,
           currentIndex := 0 },
         { files := [(0, c1)], records := [(0, k + rs.length)], failOpen := false }) ∧
        single1.length = 102 ∧
        ∀ rest, validCount (c1 ++ rest) = N + rs.length + validCount rest := by
  induction rs with
  | nil =>
    intro k single c N hs _ hv
    exact ⟨single, c, by simp [writeAll], hs, by simpa using hv⟩
  | cons r rs ih =>
    intro k single c N hs hk hv
    have hk1 : k < MAX_BINLOG_SIZE := by
      simp only [List.length_cons] at hk; push_cast at hk; omega
    have hw := Write_append
      { currentBinLogFile := some { index := 0, closed := false }, binlogSize := k,
        buffer := [], singleBinlogBuffer := single, currentIndex := 0 }
      { files := [(0, c)], records := [(0, k)], failOpen := false } [r]
      { index := 0, closed := false } rfl (by simp) hk1 rfl
    have hfiles : setKey (0 : Int) ((([((0 : Int), c)] : List (Int × List Byte)).lookup 0).getD [] ++
        (writeLoop single [] [r]).2) [((0 : Int), c)] = [(0, c ++ (writeLoop single [] [r]).2)] := by
      simp [setKey, List.lookup]
    have hrecs : setKey (0 : Int) (k + 1) [((0 : Int), k)] = [(0, k + 1)] := by
      simp [setKey]
    dsimp only at hw
    rw [hfiles, hrecs] at hw
    obtain ⟨single1, c1, h1, h2, h3⟩ := ih (k + 1) (writeLoop single [] [r]).1
      (c ++ (writeLoop single [] [r]).2) (N + 1) (writeLoop_single_length _ _ _ hs)
      (by simp only [List.length_cons] at hk; push_cast at hk; omega)
      (by
        intro rest
        rw [List.append_assoc, hv, validCount_writeLoop _ _ _ hs]
        simp; omega)
    refine ⟨single1, c1, ?_, h2, ?_⟩
    · have e : k + ((r :: rs).length : Int) = k + 1 + rs.length := by
        simp only [List.length_cons]; push_cast; ring
      rw [e]
      simp only [List.map_cons, writeAll, hw, h1]
    · intro rest
      rw [h3, List.length_cons]
      omega

/-- After `MAX_BINLOG_SIZE` writes of one record each, from the empty data directory and a
new manager, one more `Write` of one record rotates: there are two segments, `bin.000`
with `MAX_BINLOG_SIZE` records and `bin.001` with one. -/
theorem Write_singles_rotate (rs : List BingLog) (r : BingLog)
    (hlen : (rs.length : Int) = MAX_BINLOG_SIZE) :
    ∃ (m1 m2 : localBinlogManager) (d1 d2 : Disk) (c0 c1 : List Byte),
      writeAll (NewXBinlogManager Disk.empty).1 (NewXBinlogManager Disk.empty).2
        (rs.map fun x => [x]) = (none, m1, d1) ∧
      Write m1 d1 [r] = (none, m2, d2) ∧
      d2.files = [(0, c0), (1, c1)] ∧ validCount c0 = rs.length ∧ validCount c1 = 1 := by
  cases rs with
  | nil => simp [MAX_BINLOG_SIZE] at hlen
  | cons x rs =>
    have hw := Write_open
      { currentBinLogFile := none, binlogSize := 0, buffer := [],
        singleBinlogBuffer := freshBuffer, currentIndex := 0 }
      { files := [(0, [LF])], records := [], failOpen := false } _ [x] _ 0 0 rfl (by simp)
      getCurrentBinLogFile_first rfl
    have hfiles : setKey (0 : Int) ((([((0 : Int), [LF])] : List (Int × List Byte)).lookup 0).getD [] ++
        (writeLoop freshBuffer [] [x]).2) [((0 : Int), [LF])] =
        [(0, [LF] ++ (writeLoop freshBuffer [] [x]).2)] := by
      simp [setKey, List.lookup]
    have hrecs : setKey (0 : Int) ((0 : Int) + 1) ([] : List (Int × Int)) = [(0, 1)] := by
      simp [setKey]
    dsimp only at hw
    rw [hfiles, hrecs, Int.zero_add] at hw
    obtain ⟨single1, c, h1, h2, h3⟩ := writeAll_singles rs 1 (writeLoop freshBuffer [] [x]).1
      ([LF] ++ (writeLoop freshBuffer [] [x]).2) 1
      (writeLoop_single_length _ _ _ freshBuffer_length)
      (by simp only [List.length_cons] at hlen; push_cast at hlen; omega)
      (by
        intro rest
        rw [List.append_assoc, List.singleton_append, validCount_LF,
          validCount_writeLoop _ _ _ freshBuffer_length]
        simp)
    have hfull : (1 : Int) + rs.length ≥ MAX_BINLOG_SIZE := by
      simp only [List.length_cons] at hlen; push_cast at hlen; omega
    have hr := Write_rotate
      { currentBinLogFile := some { index := 0, closed := false }, binlogSize := 1 + rs.length,
        buffer := [], singleBinlogBuffer := single1, currentIndex := 0 }
      { files := [(0, c)], records := [(0, 1 + rs.length)], failOpen := false } _ [r]
      { index := 0, closed := false } _ 0 1 rfl rfl hfull (by simp)
      (getCurrentBinLogFile_full c _ hfull) rfl
    have hfiles2 : setKey (1 : Int) ((([((0 : Int), c), ((1 : Int), [])] :
        List (Int × List Byte)).lookup 1).getD [] ++ (writeLoop single1 [] [r]).2)
        [((0 : Int), c), ((1 : Int), [])] = [(0, c), (1, (writeLoop single1 [] [r]).2)] := by
      simp [setKey, List.lookup]
    dsimp only at hr
    rw [hfiles2] at hr
    have hall : writeAll
        { currentBinLogFile := none, binlogSize := 0, buffer := [],
          singleBinlogBuffer := freshBuffer, currentIndex := 0 }
        { files := [(0, [LF])], records := [], failOpen := false }
        ([x] :: rs.map fun x => [x]) =
        (none,
         { currentBinLogFile := some { index := 0, closed := false },
           binlogSize := 1 + rs.length, buffer := [], singleBinlogBuffer := single1,
           currentIndex := 0 },
         { files := [(0, c)], records := [(0, 1 + rs.length)], failOpen := false }) := by
      rw [writeAll, hw]
      exact h1
    rw [NewXBinlogManager_empty, List.map_cons]
    refine ⟨_, _, _, _, c, (writeLoop single1 [] [r]).2, hall, hr, rfl, ?_, ?_⟩
    · have := h3 []
      simp only [List.append_nil] at this
      rw [this]
      simp [validCount, lines_nil]
      omega
    · have := validCount_writeLoop [r] [] single1 h2
      simpa [validCount, lines_nil] using this

/-! ## `Read` does not panic -/

/-- The two `Copy8` calls of `Read` are made on 8 bytes each, so they do not panic. -/
theorem decodeLine_ne_panic (bs : List Byte) : decodeLine bs ≠ .fail .panic := by
  unfold decodeLine
  split
  · simp
  · split
    · simp
    · rename_i raw _
      split
      · simp
      · rename_i hlen
        have hraw : raw.length = 102 := by
          simpa [LOCAL_BINLOG_SIZE] using hlen
        rw [Copy8_of_length (raw.take 8) (by simp [hraw]),
          Copy8_of_length ((raw.drop 8).take 8) (by simp [hraw])]
        simp

/-! ## C11: reading at the end of the segment -/

/-- C11: for a segment and an offset at or past its size, `Read` returns no records, no
error and the offset it was given; and however many times the call is repeated from the
returned offset on the unchanged data directory, the result is the same. -/
theorem C11_read_caught_up (codec : LengthCodec) (d : Disk) (fileIndex : Int)
    (content : List Byte) (offset fetchLine : Int)
    (hd : d.files.lookup fileIndex = some content) (hoff : (content.length : Int) ≤ offset) :
    Read codec d fileIndex offset fetchLine = ([], offset, none) ∧
      ∀ k : Nat, readRepeat codec d fileIndex fetchLine k offset = ([], offset, none) := by
  have h0 : Read codec d fileIndex offset fetchLine = ([], offset, none) := by
    simp only [Read, hd, readSegment, if_pos hoff]
  refine ⟨h0, ?_⟩
  intro k
  induction k with
  | zero => exact h0
  | succ k ih =>
    rw [readRepeat, h0]
    exact ih

/-- C11 on the segment of `twoRecords`, whose size is 274, at the offset 274. -/
theorem C11_read_caught_up_witness :
    Read bigEndian twoRecords 0 274 10 = ([], 274, none) ∧
      ∀ k : Nat, readRepeat bigEndian twoRecords 0 10 k 274 = ([], 274, none) :=
  C11_read_caught_up bigEndian twoRecords 0 (encodeLine sampleA ++ encodeLine sampleB) 274 10 rfl
    (by simp only [List.length_append, encodeLine_length]; decide)

/-! ## C12: the count after a `Write` -/

theorem lookup_setKey {α : Type} (i : Int) (v : α) : ∀ l : List (Int × α),
    (setKey i v l).lookup i = some v := by
  intro l
  induction l with
  | nil => simp [setKey, List.lookup]
  | cons p l ih =>
    obtain ⟨j, w⟩ := p
    by_cases hj : j = i
    · simp [setKey, hj, List.lookup]
    · have hb : (i == j) = false := by simpa using fun e : i = j => hj e.symm
      simp only [setKey, hj, if_false, List.lookup, hb]
      exact ih

/-- Without rotation, a `Write` on a closed file fails. -/
theorem Write_append_closed (m : localBinlogManager) (d : Disk) (bin : List BingLog)
    (f : FileHandle) (hf : m.currentBinLogFile = some f) (hb : bin.length ≠ 0)
    (hs : m.binlogSize < MAX_BINLOG_SIZE) (hc : f.closed = true) :
    (Write m d bin).1 = some .closed := by
  have hs1 : ¬ m.binlogSize ≥ MAX_BINLOG_SIZE := by omega
  simp only [Write, hb, if_false, hf, reduceCtorEq, hs1, or_self, Disk.appendTo, hc, if_true]

theorem AppendFile_ok (d d1 : Disk) (i : Int) (f : FileHandle)
    (h : d.AppendFile i = .ok (f, d1)) : f.closed = false ∧ f.index = i := by
  unfold Disk.AppendFile at h
  split at h
  · simp at h
  · split at h <;>
    · simp only [Except.ok.injEq, Prod.mk.injEq] at h
      rw [← h.1]
      exact ⟨rfl, rfl⟩

theorem create_ok (d d1 : Disk) (i : Int) (f : FileHandle)
    (h : create d = .ok (f, i, d1)) : f.closed = false ∧ f.index = i := by
  unfold create at h
  split at h
  · simp at h
  · split at h
    · simp at h
    · rename_i j _ out d2 ha
      simp only [Except.ok.injEq, Prod.mk.injEq] at h
      have := AppendFile_ok _ _ _ _ ha
      rw [← h.1, ← h.2.1]
      exact this

theorem create_ok_result (d d1 : Disk) (f : FileHandle) (size index : Int)
    (h : (match create d with
      | .error e => (.error e : Except Err (FileHandle × Int × Int × Disk))
      | .ok (ret, index1, d2) => .ok (ret, 0, index1, d2)) = .ok (f, size, index, d1)) :
    f.closed = false ∧ f.index = index ∧ size = 0 := by
  cases hc : create d with
  | error e => rw [hc] at h; simp at h
  | ok p =>
    obtain ⟨ret, index1, d2⟩ := p
    rw [hc] at h
    simp only [Except.ok.injEq, Prod.mk.injEq] at h
    have := create_ok _ _ _ _ hc
    rw [← h.1, ← h.2.1, ← h.2.2.1]
    exact ⟨this.1, this.2, rfl⟩

/-- The file `getCurrentBinLogFile` returns is open, it is the segment of the index
returned, and the count returned is 0 or the count stored for that index. -/
theorem getCurrentBinLogFile_ok (d d1 : Disk) (f : FileHandle) (size index : Int)
    (h : getCurrentBinLogFile d = .ok (f, size, index, d1)) :
    f.closed = false ∧ f.index = index ∧ (size = 0 ∨ size = d.GetRecords index) := by
  unfold getCurrentBinLogFile at h
  cases hs : scanLoop d 1000 false 0 with
  | error e => rw [hs] at h; simp at h
  | ok p =>
    obtain ⟨se, idx⟩ := p
    rw [hs] at h
    simp only at h
    by_cases h1 : (!se) = true
    · rw [if_pos h1] at h
      have := create_ok_result d d1 f size index h
      exact ⟨this.1, this.2.1, Or.inl this.2.2⟩
    · rw [if_neg h1] at h
      by_cases h2 : d.failOpen = true
      · rw [if_pos h2] at h; simp at h
      · rw [if_neg h2] at h
        by_cases h3 : d.GetRecords idx ≥ MAX_BINLOG_SIZE
        · rw [if_pos h3] at h
          have := create_ok_result d d1 f size index h
          exact ⟨this.1, this.2.1, Or.inl this.2.2⟩
        · rw [if_neg h3] at h
          cases ha : d.AppendFile idx with
          | error e => rw [ha] at h; simp at h
          | ok q =>
            obtain ⟨ret, d2⟩ := q
            rw [ha] at h
            simp only [Except.ok.injEq, Prod.mk.injEq] at h
            have := AppendFile_ok _ _ _ _ ha
            rw [← h.1, ← h.2.1, ← h.2.2.1]
            exact ⟨this.1, this.2, Or.inr rfl⟩

/-- A `Write` that needs a file from `getCurrentBinLogFile` and does not get one fails. -/
theorem Write_open_failed (m : localBinlogManager) (d : Disk) (bin : List BingLog) (e : Err)
    (hf : m.currentBinLogFile = none) (hb : bin.length ≠ 0)
    (he : getCurrentBinLogFile d = .error e) : (Write m d bin).1 = some e := by
  simp only [Write, hb, if_false, hf, true_or, if_true, he, Option.map_none']

set_option maxRecDepth 1000000 in
/-- C12, as stated, fails for a manager that has no file open yet.  On `countedDisk`, where
`bin.000` is recorded as holding 5 records, the first `Write` of a new manager succeeds
and creates no segment (before and after, `bin.000` is the only one), and the count of the
manager goes from 0 to 6, not to 1: the count is taken from the side index before it is
incremented. -/
theorem C12_first_write_counterexample :
    (NewXBinlogManager countedDisk).1.currentBinLogFile = none ∧
      (NewXBinlogManager countedDisk).1.binlogSize = 0 ∧
      (Write (NewXBinlogManager countedDisk).1 (NewXBinlogManager countedDisk).2 [sampleA]).1 =
        none ∧
      (NewXBinlogManager countedDisk).2.files.map Prod.fst = [0] ∧
      (Write (NewXBinlogManager countedDisk).1 (NewXBinlogManager countedDisk).2
        [sampleA]).2.2.files.map Prod.fst = [0] ∧
      (Write (NewXBinlogManager countedDisk).1 (NewXBinlogManager countedDisk).2
        [sampleA]).2.1.binlogSize = 6 ∧
      (Write (NewXBinlogManager countedDisk).1 (NewXBinlogManager countedDisk).2
        [sampleA]).2.1.binlogSize ≠ (NewXBinlogManager countedDisk).1.binlogSize + 1 := by
  decide

/-- C12, amended: for every manager, data directory and non-empty batch of any size on
which `Write` succeeds, the count stored by `SetRecords` for the current segment index is
the new count of the manager.  When the manager has a file open and a count below
`MAX_BINLOG_SIZE` (the `Write` keeps its file), the new count is one more than the count
before and the index is unchanged.  When the manager has no file open or its count is at
the cap (the `Write` takes its file from `getCurrentBinLogFile`), the new count is one more
than the count `getCurrentBinLogFile` returns, which is 0 or the count stored for the
segment it returns. -/
theorem C12_count_after_write (m : localBinlogManager) (d : Disk) (bin : List BingLog)
    (hb : bin.length ≠ 0) (hok : (Write m d bin).1 = none) :
    (Write m d bin).2.2.GetRecords (Write m d bin).2.1.currentIndex =
        (Write m d bin).2.1.binlogSize ∧
      (m.currentBinLogFile ≠ none → m.binlogSize < MAX_BINLOG_SIZE →
        (Write m d bin).2.1.binlogSize = m.binlogSize + 1 ∧
          (Write m d bin).2.1.currentIndex = m.currentIndex) ∧
      (m.currentBinLogFile = none ∨ m.binlogSize ≥ MAX_BINLOG_SIZE →
        ∃ f size index d1, getCurrentBinLogFile d = .ok (f, size, index, d1) ∧
          (size = 0 ∨ size = d.GetRecords index) ∧
          (Write m d bin).2.1.binlogSize = size + 1 ∧
          (Write m d bin).2.1.currentIndex = index) := by
  have hget : ∀ (i v : Int) (l : List (Int × Int)), ((setKey i v l).lookup i).getD 0 = v :=
    fun i v l => by rw [lookup_setKey, Option.getD_some]
  by_cases hrot : m.currentBinLogFile = none ∨ m.binlogSize ≥ MAX_BINLOG_SIZE
  · -- the file comes from `getCurrentBinLogFile`
    have hopen : ∃ f size index d1, getCurrentBinLogFile d = .ok (f, size, index, d1) ∧
        Write m d bin =
          (none,
           { currentBinLogFile := some f, binlogSize := size + 1, buffer := [],
             singleBinlogBuffer := (writeLoop m.singleBinlogBuffer m.buffer bin).1,
             currentIndex := index },
           { files := setKey f.index ((d1.files.lookup f.index).getD [] ++
               (writeLoop m.singleBinlogBuffer m.buffer bin).2) d1.files,
             records := setKey index (size + 1) d1.records, failOpen := d1.failOpen }) := by
      cases hg : getCurrentBinLogFile d with
      | error e =>
        exfalso
        cases hf : m.currentBinLogFile with
        | none =>
          rw [Write_open_failed m d bin e hf hb hg] at hok
          simp at hok
        | some f0 =>
          have hs : m.binlogSize ≥ MAX_BINLOG_SIZE := by
            rcases hrot with h | h
            · rw [hf] at h; simp at h
            · exact h
          cases hc : f0.closed with
          | true =>
            rw [Write_closed_stuck m d bin f0 hf hc hs hb] at hok
            simp at hok
          | false =>
            rw [Write_failed_rotation m d bin f0 e hf hc hs hb hg] at hok
            simp at hok
      | ok p =>
        obtain ⟨f, size, index, d1⟩ := p
        have hfc := (getCurrentBinLogFile_ok d d1 f size index hg).1
        refine ⟨f, size, index, d1, rfl, ?_⟩
        cases hf : m.currentBinLogFile with
        | none => exact Write_open m d d1 bin f size index hf hb hg hfc
        | some f0 =>
          have hs : m.binlogSize ≥ MAX_BINLOG_SIZE := by
            rcases hrot with h | h
            · rw [hf] at h; simp at h
            · exact h
          cases hc : f0.closed with
          | true =>
            exfalso
            rw [Write_closed_stuck m d bin f0 hf hc hs hb] at hok
            simp at hok
          | false => exact Write_rotate m d d1 bin f0 f size index hf hc hs hb hg hfc
    obtain ⟨f, size, index, d1, hg, hw⟩ := hopen
    rw [hw]
    refine ⟨?_, ?_, ?_⟩
    · exact hget _ _ _
    · intro hne hlt
      rcases hrot with h | h
      · exact absurd h hne
      · omega
    · intro _
      exact ⟨f, size, index, d1, hg, (getCurrentBinLogFile_ok d d1 f size index hg).2.2, rfl, rfl⟩
  · -- the manager keeps its file
    have hf : m.currentBinLogFile ≠ none := fun h => hrot (Or.inl h)
    have hs : m.binlogSize < MAX_BINLOG_SIZE := by
      by_contra h
      exact hrot (Or.inr (by omega))
    obtain ⟨f, hf1⟩ := Option.ne_none_iff_exists'.mp hf
    cases hc : f.closed with
    | true =>
      rw [Write_append_closed m d bin f hf1 hb hs hc] at hok
      simp at hok
    | false =>
      rw [Write_append m d bin f hf1 hb hs hc]
      refine ⟨?_, ?_, ?_⟩
      · exact hget _ _ _
      · intro _ _
        exact ⟨rfl, rfl⟩
      · intro h
        exact absurd h hrot

set_option maxRecDepth 1000000 in
/-- C12, amended, at `openManager` (a file open, count 1) with a batch of two records, where
the count becomes 2; and at a new manager on `countedDisk` with one record, where the
count becomes one more than the count `getCurrentBinLogFile` returns. -/
theorem C12_count_after_write_witness :
    ((Write openManager twoRecords [sampleA, sampleB]).2.2.GetRecords
          (Write openManager twoRecords [sampleA, sampleB]).2.1.currentIndex =
        (Write openManager twoRecords [sampleA, sampleB]).2.1.binlogSize ∧
      (Write openManager twoRecords [sampleA, sampleB]).2.1.binlogSize =
        openManager.binlogSize + 1 ∧
      (Write openManager twoRecords [sampleA, sampleB]).2.1.currentIndex =
        openManager.currentIndex) ∧
    ∃ f size index d1,
      getCurrentBinLogFile (NewXBinlogManager countedDisk).2 = .ok (f, size, index, d1) ∧
      (size = 0 ∨ size = (NewXBinlogManager countedDisk).2.GetRecords index) ∧
      (Write (NewXBinlogManager countedDisk).1 (NewXBinlogManager countedDisk).2
        [sampleA]).2.1.binlogSize = size + 1 ∧
      (Write (NewXBinlogManager countedDisk).1 (NewXBinlogManager countedDisk).2
        [sampleA]).2.1.currentIndex = index :=
  ⟨⟨(C12_count_after_write openManager twoRecords [sampleA, sampleB] (by decide) (by decide)).1,
    (C12_count_after_write openManager twoRecords [sampleA, sampleB] (by decide) (by decide)).2.1
      (by decide) (by decide)⟩,
   (C12_count_after_write (NewXBinlogManager countedDisk).1 (NewXBinlogManager countedDisk).2
      [sampleA] (by decide) (by decide)).2.2 (Or.inl (by decide))⟩

/-! ## C13: stale bytes of the scratch buffer -/

/-- The scratch buffer after a record was copied into it: the instance and length fields
are those of the record, the file-id field is overwritten from its start only. -/
theorem fillBuffer_of_length (buf : List Byte) (r : BingLog) (h : buf.length = 102) :
    fillBuffer buf r =
      r.SourceInstance.data ++ r.FileLength.data ++ goCopy (buf.drop 16) r.FileId := by
  have h1 := r.SourceInstance.size_eq
  have h2 := r.FileLength.size_eq
  have e1 : goCopy (buf.take 8) r.SourceInstance.data = r.SourceInstance.data := by
    simp [goCopy, h, h1, List.take_of_length_le]
  have e2 : goCopy ((buf.drop 8).take 8) r.FileLength.data = r.FileLength.data := by
    simp [goCopy, h, h2, List.take_of_length_le]
  rw [fillBuffer, e1, e2]

/-- The file-id field after a shorter file id was copied over a longer one. -/
theorem goCopy_stale (fid1 fid2 : List Byte) (h12 : fid2.length < fid1.length)
    (h1 : fid1.length ≤ 86) :
    goCopy (padFileId fid1) fid2 =
      fid2 ++ fid1.drop fid2.length ++ List.replicate (86 - fid1.length) 0 := by
  rw [goCopy, padFileId_length, List.take_of_length_le (by omega), padFileId_of_le _ h1,
    List.drop_append_of_le_length (by omega), List.append_assoc]

/-- The scratch buffer after the two records of a batch. -/
theorem fillBuffer_second (r1 r2 : BingLog) (h12 : r2.FileId.length < r1.FileId.length)
    (h1 : r1.FileId.length ≤ 86) :
    fillBuffer (fillBuffer freshBuffer r1) r2 =
      r2.SourceInstance.data ++ r2.FileLength.data ++
        (r2.FileId ++ r1.FileId.drop r2.FileId.length ++
          List.replicate (86 - r1.FileId.length) 0) := by
  have hd : (fillBuffer freshBuffer r1).drop 16 = padFileId r1.FileId := by
    rw [fillBuffer_fresh, List.drop_append_of_le_length
      (by simp [r1.SourceInstance.size_eq, r1.FileLength.size_eq])]
    simp [r1.SourceInstance.size_eq, r1.FileLength.size_eq]
  rw [fillBuffer_of_length _ _ (fillBuffer_length _ _ freshBuffer_length), hd,
    goCopy_stale _ _ h12 h1]

theorem EncodeToString_line_injective (a b : List Byte) (ha : a.length % 3 = 0)
    (hb : b.length % 3 = 0) (h : EncodeToString a ++ [LF] = EncodeToString b ++ [LF]) : a = b := by
  have h1 := decode_encode a [LF] ha
  have h2 := decode_encode b [LF] hb
  rw [h, h2] at h1
  have hLF : decodeLoop [] [LF] = some [] := by
    simp [decodeLoop, decodeMap_LF, quantumBytes]
  rw [hLF] at h1
  simpa using h1.symm

/-- C13, as stated, fails.  The batch holds the record `sampleNul`, whose file id is `"f1"`
and a zero byte, and then the record `sampleA`, whose file id is `"f1"`: the stale byte is
a zero byte, and the line emitted for `sampleA` in the batch is the line emitted for
`sampleA` alone by a new manager. -/
theorem C13_bleed_through_counterexample :
    sampleA.FileId.length < sampleNul.FileId.length ∧ sampleNul.FileId.length ≤ 86 ∧
      (writeLoop freshBuffer [] [sampleNul, sampleA]).2 =
        encodeLine sampleNul ++ encodeLine sampleA := by
  refine ⟨by decide, by decide, ?_⟩
  have h : fillBuffer (fillBuffer freshBuffer sampleNul) sampleA = fillBuffer freshBuffer sampleA := by
    decide
  simp only [writeLoop, encodeLine, List.nil_append, h, List.append_assoc]

/-- C13, amended: for a batch of two records `r1`, `r2` written by a new manager with
`len(r2.FileId) < len(r1.FileId) <= 86`, the output is the line of `r1` followed by a line
for `r2` that decodes to the instance id and length of `r2` and to the file-id field
`r2.FileId`, then the stale bytes `r1.FileId[len(r2.FileId):]`, then zeros.  That line
differs from the line emitted for `r2` alone by a new manager exactly when one of the stale
bytes is not zero. -/
theorem C13_bleed_through (r1 r2 : BingLog) (h12 : r2.FileId.length < r1.FileId.length)
    (h1 : r1.FileId.length ≤ 86) :
    ∃ line2, (writeLoop freshBuffer [] [r1, r2]).2 = encodeLine r1 ++ line2 ∧
      decodeLine line2 = .record
        { SourceInstance := r2.SourceInstance, FileLength := r2.FileLength,
          FileId := r2.FileId ++ r1.FileId.drop r2.FileId.length ++
            List.replicate (86 - r1.FileId.length) 0 } ∧
      (line2 ≠ encodeLine r2 ↔ ∃ b ∈ r1.FileId.drop r2.FileId.length, b ≠ 0) := by
  have hfield : (r2.FileId ++ r1.FileId.drop r2.FileId.length ++
      List.replicate (86 - r1.FileId.length) 0).length = 86 := by
    simp only [List.length_append, List.length_drop, List.length_replicate]; omega
  refine ⟨EncodeToString (fillBuffer (fillBuffer freshBuffer r1) r2) ++ [LF], ?_, ?_, ?_⟩
  · simp only [writeLoop, encodeLine, List.nil_append, List.append_assoc]
  · rw [fillBuffer_second r1 r2 h12 h1]
    exact decodeLine_encode _ _ _ hfield
  · rw [encodeLine_eq]
    have hlen : ∀ r, (fillBuffer freshBuffer r).length % 3 = 0 := fun r => by
      rw [fillBuffer_length _ _ freshBuffer_length]
    have hlen2 : (fillBuffer (fillBuffer freshBuffer r1) r2).length % 3 = 0 := by
      rw [fillBuffer_length _ _ (fillBuffer_length _ _ freshBuffer_length)]
    have hpad : padFileId r2.FileId =
        r2.FileId ++ List.replicate (86 - r2.FileId.length) 0 := padFileId_of_le _ (by omega)
    constructor
    · intro hne
      by_contra hall
      apply hne
      have hzero : r1.FileId.drop r2.FileId.length =
          List.replicate (r1.FileId.length - r2.FileId.length) 0 := by
        rw [List.eq_replicate_iff]
        refine ⟨by simp, ?_⟩
        intro b hb
        by_contra hb0
        exact hall ⟨b, hb, hb0⟩
      rw [fillBuffer_second r1 r2 h12 h1, fillBuffer_fresh, hpad, hzero, List.append_assoc r2.FileId,
        List.append_replicate_replicate]
      have : r1.FileId.length - r2.FileId.length + (86 - r1.FileId.length) =
          86 - r2.FileId.length := by omega
      rw [this]
    · rintro ⟨b, hb, hb0⟩ heq
      have hbuf := EncodeToString_line_injective _ _ hlen2 (hlen r2) heq
      rw [fillBuffer_second r1 r2 h12 h1, fillBuffer_fresh, hpad, List.append_assoc r2.FileId] at hbuf
      have hfid := List.append_cancel_left (List.append_cancel_left hbuf)
      have hmem : b ∈ List.replicate (86 - r2.FileId.length) (0 : Byte) := by
        rw [← hfid]
        exact List.mem_append_left _ hb
      exact hb0 (List.eq_of_mem_replicate hmem)

/-- C13, amended, at the batch of `sampleA` (file id `"f1"`) and `sampleShort` (file id
`"f"`): the stale byte is `"1"`. -/
theorem C13_bleed_through_witness :
    ∃ line2, (writeLoop freshBuffer [] [sampleA, sampleShort]).2 = encodeLine sampleA ++ line2 ∧
      decodeLine line2 = .record
        { SourceInstance := sampleShort.SourceInstance, FileLength := sampleShort.FileLength,
          FileId := sampleShort.FileId ++ sampleA.FileId.drop sampleShort.FileId.length ++
            List.replicate (86 - sampleA.FileId.length) 0 } ∧
      (line2 ≠ encodeLine sampleShort ↔
        ∃ b ∈ sampleA.FileId.drop sampleShort.FileId.length, b ≠ 0) :=
  C13_bleed_through sampleA sampleShort (by decide) (by decide)

end binlog
